import Mathlib

/-!
Shallow embedding of the Hanabi environment from `src/hanabi_env.rs` and
`src/env.rs` of `coreylowman/hanabi-mcts`.

Modelling conventions:
* machine integers (`u8`) become `ℕ`; subtractions that the source performs on
  guarded paths (where the Rust value is provably positive) become truncated
  `Nat` subtraction;
* indexing a 25-entry (resp. 5-entry) array with an index the source guarantees
  in range becomes indexing a `Fin 25` (resp. `Fin 5`) function; where the
  source could index out of bounds (a Rust panic) the model returns `none`;
* the RNG is passed explicitly: `rng.gen_range(0, n)` on a draw value `r : ℕ`
  becomes `r % n`, and code that draws repeatedly takes a stream `f : ℕ → ℕ`
  together with a cursor; loops whose termination depends on randomness
  (the determinization restart loop) take explicit fuel and return `none`
  when it runs out;
* the `f32` importance weight becomes `ℚ` (the source only ever forms the
  quotient of two small integers).
-/

namespace Hanabi

/-- A card, encoded exactly as in the source: `id = color * 5 + suit`,
with `id = 26` the "none" sentinel for an empty slot. -/
structure Card where
  id : ℕ
deriving DecidableEq

def Card.parts_id (color suit : ℕ) : ℕ := color * 5 + suit

def Card.from_parts (color suit : ℕ) : Card := ⟨Card.parts_id color suit⟩

/-- `Card::none()` sentinel. -/
def Card.none : Card := ⟨26⟩

def Card.is_none (c : Card) : Bool := c.id == 26

def Card.is_some (c : Card) : Bool := !c.is_none

def Card.color_id (c : Card) : ℕ := c.id / 5

def Card.suit_id (c : Card) : ℕ := c.id % 5

/-- A per-slot hint: two bitmasks over the five colors / five suits.
`empty` is all five low bits set; `none` is the dedicated top-bit sentinel. -/
structure Hint where
  color : ℕ
  suit : ℕ
deriving DecidableEq

def Hint.empty : Hint := ⟨0b011111, 0b011111⟩

def Hint.none : Hint := ⟨0b100000, 0b100000⟩

def Hint.is_none (h : Hint) : Bool := h.color == 0b100000 || h.suit == 0b100000

def Hint.is_some (h : Hint) : Bool := !h.is_none

def Hint.set_true_color (h : Hint) (c : Fin 5) : Hint := { h with color := 1 <<< c.val }

/-- `self.color &= !(1 << c)`; the `u8` complement of `1 << c` is `255 ^^^ (1 <<< c)`. -/
def Hint.disable_color (h : Hint) (c : Fin 5) : Hint :=
  { h with color := h.color &&& (255 ^^^ (1 <<< c.val)) }

def Hint.set_true_suit (h : Hint) (s : Fin 5) : Hint := { h with suit := 1 <<< s.val }

def Hint.disable_suit (h : Hint) (s : Fin 5) : Hint :=
  { h with suit := h.suit &&& (255 ^^^ (1 <<< s.val)) }

/-- `Hint::matches`: `mask & (1 << bit) == (1 << bit)` on both masks.
The source first converts the card to its `Color`/`Suit` enum (a panic for an
invalid id); every call site in the claims guards validity. -/
def Hint.matches (h : Hint) (c : Card) : Bool :=
  (h.color &&& (1 <<< c.color_id) == 1 <<< c.color_id) &&
  (h.suit &&& (1 <<< c.suit_id) == 1 <<< c.suit_id)

inductive Action where
  | ColorHint : Fin 5 → Action
  | SuitHint : Fin 5 → Action
  | Discard : Hint → Action
  | Play : Hint → Action
deriving DecidableEq

/-- A multiset of cards: per-identity tallies plus the cached grand total. -/
structure CardCollection where
  total : ℕ
  counts : Fin 25 → ℕ

instance : DecidableEq CardCollection := fun a b =>
  decidable_of_iff (a.total = b.total ∧ a.counts = b.counts)
    (by cases a; cases b; simp)

def CardCollection.empty : CardCollection := ⟨0, fun _ => 0⟩

def CardCollection.starting_deck : CardCollection :=
  ⟨50, ![3, 2, 2, 2, 1,  3, 2, 2, 2, 1,  3, 2, 2, 2, 1,  3, 2, 2, 2, 1,  3, 2, 2, 2, 1]⟩

/-- `remove` at a known-in-range identity (the source decrements `u8` tallies;
all call sites in the claims have a positive tally). -/
def CardCollection.removeF (col : CardCollection) (i : Fin 25) : CardCollection :=
  { total := col.total - 1, counts := Function.update col.counts i (col.counts i - 1) }

def CardCollection.addF (col : CardCollection) (i : Fin 25) : CardCollection :=
  { total := col.total + 1, counts := Function.update col.counts i (col.counts i + 1) }

/-- `add` on a `Card`; an out-of-range id (only the `none` sentinel at the
source's call sites, which never happens) would panic in Rust. -/
def CardCollection.add (col : CardCollection) (c : Card) : CardCollection :=
  if h : c.id < 25 then col.addF ⟨c.id, h⟩ else col

def CardCollection.removeCard (col : CardCollection) (id : ℕ) : Option CardCollection :=
  if h : id < 25 then some (col.removeF ⟨id, h⟩) else Option.none

/-- `subtract`: elementwise; `u8` underflow (caller ensures non-negativity) is
modelled by truncation. -/
def CardCollection.subtract (col other : CardCollection) : CardCollection :=
  { total := col.total - other.total, counts := fun i => col.counts i - other.counts i }

/-- The cumulative walk inside `pop`, written with a structural countdown
(`fuel` is `25 - i`, so the recursion mirrors the source's `for i in 0..25`). -/
def goFindCard (counts : Fin 25 → ℕ) (r : ℕ) : ℕ → ℕ → ℕ → Option (Fin 25)
  | 0, _, _ => Option.none
  | fuel + 1, i, acc =>
    if h : i < 25 then
      if r < acc + counts ⟨i, h⟩ then some ⟨i, h⟩
      else goFindCard counts r fuel (i + 1) (acc + counts ⟨i, h⟩)
    else Option.none

/-- The cumulative walk inside `pop`: starting at index `i` with the cumulative
count `acc`, return the first identity whose cumulative range contains `r`. -/
def findCard (counts : Fin 25 → ℕ) (r : ℕ) (i acc : ℕ) : Option (Fin 25) :=
  goFindCard counts r (25 - i) i acc

/-- `CardCollection::pop`: draw `r % total` in `[0, total)`, walk the cumulative
counts, remove and return the found identity; the `none` card if `total == 0`
(or if the walk falls through, possible only when `total` exceeds the tally sum). -/
def CardCollection.pop (col : CardCollection) (r : ℕ) : Card × CardCollection :=
  if 0 < col.total then
    match findCard col.counts (r % col.total) 0 0 with
    | some i => (Card.mk i.val, col.removeF i)
    | Option.none => (Card.none, col)
  else (Card.none, col)

/-- One iteration of the restriction loop at the top of `pop_match`: if
identity `i` is present in `col` but does not match the hint, zero its tally
in `m` and deduct it from `m`'s total. -/
def restrictStep (col : CardCollection) (h : Hint) (m : CardCollection) (i : Fin 25) :
    CardCollection :=
  if 0 < col.counts i ∧ ¬(h.matches (Card.mk i.val) = true) then
    { total := m.total - m.counts i, counts := Function.update m.counts i 0 }
  else m

/-- The restriction loop at the top of `pop_match`: zero out every identity that
is present but does not match the hint, deducting its tally from the total. -/
def CardCollection.restrictToHint (col : CardCollection) (h : Hint) : CardCollection :=
  (List.finRange 25).foldl (restrictStep col h) col

/-- `CardCollection::pop_match`: pop from the hint-restricted multiset; on
success remove the drawn card from `self` and report the weight
`(restricted count after removal + 1) / (restricted total after removal + 1)`. -/
def CardCollection.popMatch (col : CardCollection) (h : Hint) (r : ℕ) :
    Option (Card × ℚ) × CardCollection :=
  let m := col.restrictToHint h
  if 0 < m.total then
    match findCard m.counts (r % m.total) 0 0 with
    | some i =>
        let m2 := m.removeF i
        (some (Card.mk i.val, ((m2.counts i + 1 : ℕ) : ℚ) / ((m2.total + 1 : ℕ) : ℚ)),
          col.removeF i)
    | Option.none => (Option.none, col)
  else (Option.none, col)

structure Fireworks where
  f : Fin 5 → ℕ

instance : DecidableEq Fireworks := fun a b =>
  decidable_of_iff (a.f = b.f) (by cases a; cases b; simp)

def Fireworks.empty : Fireworks := ⟨fun _ => 0⟩

def Fireworks.total (fw : Fireworks) : ℕ := ∑ i, fw.f i

/-- `Fireworks::accepts` on a known-valid card id. -/
def Fireworks.acceptsF (fw : Fireworks) (i : Fin 25) : Bool :=
  fw.f ⟨i.val / 5, by omega⟩ == i.val % 5

/-- `Fireworks::add_card` (source asserts `accepts`; call sites check first). -/
def Fireworks.add_cardF (fw : Fireworks) (i : Fin 25) : Fireworks :=
  ⟨Function.update fw.f ⟨i.val / 5, by omega⟩ (i.val % 5 + 1)⟩

def Fireworks.is_color_complete (fw : Fireworks) (c : Fin 5) : Bool :=
  fw.f c == 5

/-- The inner `for suit in played..5 { if counts == 0 break; += 1 }` of
`possible_future_rewards`, for one color, with a structural countdown. -/
def goColorRun (counts : Fin 25 → ℕ) (c : Fin 5) : ℕ → ℕ → ℕ
  | 0, _ => 0
  | fuel + 1, suit =>
    if h : suit < 5 then
      if counts ⟨c.val * 5 + suit, by omega⟩ = 0 then 0
      else goColorRun counts c fuel (suit + 1) + 1
    else 0

/-- The run of still-completable ranks for one color of
`possible_future_rewards`. -/
def colorRun (counts : Fin 25 → ℕ) (c : Fin 5) (suit : ℕ) : ℕ :=
  goColorRun counts c (5 - suit) suit

/-- `possible_future_rewards`: cards still in play per color, counting ranks
from the current firework height up to the first fully-discarded rank. -/
def possible_future_rewards (fw : Fireworks) (discard : CardCollection) : ℕ :=
  let cards_in_play := CardCollection.starting_deck.subtract discard
  ∑ c : Fin 5, colorRun cards_in_play.counts c (fw.f c)

/-- The structural core of the slot-skipping loop (`fuel` is `5 - i`). -/
def goSkip (hints : Fin 5 → Hint) : ℕ → ℕ → Option ℕ
  | 0, _ => Option.none
  | fuel + 1, i =>
    if h : i < 5 then
      if (hints ⟨i, h⟩).is_none then goSkip hints fuel (i + 1) else some i
    else Option.none

/-- The slot-skipping loop `while hints[i].is_none() && i < 5 { i += 1 }` of
`determinize_hints`. The condition indexes `hints[i]` before testing `i < 5`,
so reaching `i = 5` is an index-out-of-bounds panic, modelled as `none`. -/
def skipFirst (hints : Fin 5 → Hint) (i : ℕ) : Option ℕ :=
  goSkip hints (5 - i) i

/-- The structural core of the advance loop (`fuel` is `5 - j`). -/
def goNext (hints : Fin 5 → Hint) : ℕ → ℕ → ℕ
  | 0, _ => 5
  | fuel + 1, j =>
    if h : j < 5 then
      if (hints ⟨j, h⟩).is_some then j else goNext hints fuel (j + 1)
    else 5

/-- The advance loop `loop { i += 1; if i == 5 || hints[i].is_some() { break } }`
of `determinize_hints`; it tests `i == 5` before indexing, so it is total.
`nextIdx hints j` is the loop's result when entered with `i + 1 = j`. -/
def nextIdx (hints : Fin 5 → Hint) (j : ℕ) : ℕ :=
  goNext hints (5 - j) j

structure HanabiEnv where
  player_hand : Fin 5 → Card
  player_hints : Fin 5 → Hint
  opponent_hand : Fin 5 → Card
  opponent_hints : Fin 5 → Hint
  deck : CardCollection
  discard : CardCollection
  blue_tokens : ℕ
  black_tokens : ℕ
  fireworks : Fireworks
  last_round : Bool
  last_round_turns_taken : ℕ

structure PrivateInfo where
  opponent_hand : Fin 5 → Card

structure PublicInfo where
  player_hints : Fin 5 → Hint
  opponent_hints : Fin 5 → Hint
  discard : CardCollection
  blue_tokens : ℕ
  black_tokens : ℕ
  fireworks : Fireworks
  last_round : Bool
  last_round_turns_taken : ℕ

instance : DecidableEq PublicInfo := fun a b =>
  decidable_of_iff (a.player_hints = b.player_hints ∧ a.opponent_hints = b.opponent_hints ∧
      a.discard = b.discard ∧ a.blue_tokens = b.blue_tokens ∧ a.black_tokens = b.black_tokens ∧
      a.fireworks = b.fireworks ∧ a.last_round = b.last_round ∧
      a.last_round_turns_taken = b.last_round_turns_taken)
    (by cases a; cases b; simp)

def HanabiEnv.public_info (env : HanabiEnv) : PublicInfo :=
  { player_hints := env.player_hints
    opponent_hints := env.opponent_hints
    discard := env.discard
    blue_tokens := env.blue_tokens
    black_tokens := env.black_tokens
    fireworks := env.fireworks
    last_round := env.last_round
    last_round_turns_taken := env.last_round_turns_taken }

def HanabiEnv.private_info (env : HanabiEnv) (player_perspective : Bool) : PrivateInfo :=
  ⟨if player_perspective then env.opponent_hand else env.player_hand⟩

/-- `HanabiEnv::hint_matches`: the indices whose hint equals the given pattern. -/
def hint_matches (hints : Fin 5 → Hint) (h : Hint) : List (Fin 5) :=
  (List.finRange 5).filter (fun i => hints i == h)

/-- Number of slots whose hint is live, as counted inside `PublicInfo::is_over`. -/
def numSomeHints (hints : Fin 5 → Hint) : ℕ := ∑ i, if (hints i).is_some = true then 1 else 0

/-- `PublicInfo::is_over`. -/
def PublicInfo.is_over (p : PublicInfo) : Bool :=
  p.black_tokens == 1 || p.fireworks.total == 25 ||
    (p.discard.total + numSomeHints p.player_hints + numSomeHints p.opponent_hints +
        p.fireworks.total == 50
      && p.last_round && p.last_round_turns_taken == 2)

def HanabiEnv.is_over (env : HanabiEnv) : Bool := env.public_info.is_over

/-- `HanabiEnv::actions`. The source compares `c.color() == color` (resp. suit)
after checking `c.is_some()`; a stale invalid id would panic there, while this
model compares the raw encodings. -/
def HanabiEnv.actions (env : HanabiEnv) : List Action :=
  let a1 := (List.finRange 5).foldl
    (fun acc i =>
      if (env.player_hand i).is_some then
        let play := Action.Play (env.player_hints i)
        let dis := Action.Discard (env.player_hints i)
        let acc1 := if acc.contains play then acc else acc ++ [play]
        if env.blue_tokens < 8 && !(acc1.contains dis) then acc1 ++ [dis] else acc1
      else acc)
    []
  if 0 < env.blue_tokens then
    let a2 := (List.finRange 5).foldl
      (fun acc c =>
        if ((List.finRange 5).filter
            (fun i => (env.opponent_hand i).is_some &&
              ((env.opponent_hand i).color_id == c.val))).length > 0 then
          acc ++ [Action.ColorHint c]
        else acc)
      a1
    (List.finRange 5).foldl
      (fun acc s =>
        if ((List.finRange 5).filter
            (fun i => (env.opponent_hand i).is_some &&
              ((env.opponent_hand i).suit_id == s.val))).length > 0 then
          acc ++ [Action.SuitHint s]
        else acc)
      a2
  else a1

/-- `HanabiEnv::discard_at` on a slot whose card id is known valid. -/
def HanabiEnv.discard_at (env : HanabiEnv) (i : Fin 5) (ci : Fin 25) : HanabiEnv :=
  { env with
    discard := env.discard.addF ci
    player_hand := Function.update env.player_hand i Card.none
    player_hints := Function.update env.player_hints i Hint.none }

/-- `HanabiEnv::draw_into`. -/
def HanabiEnv.draw_into (env : HanabiEnv) (r : ℕ) (i : Fin 5) : HanabiEnv :=
  let pd := env.deck.pop r
  if pd.1.is_some then
    { env with
      deck := pd.2
      player_hand := Function.update env.player_hand i pd.1
      player_hints := Function.update env.player_hints i Hint.empty }
  else
    { env with
      deck := pd.2
      player_hand := Function.update env.player_hand i pd.1
      player_hints := Function.update env.player_hints i Hint.none
      last_round := true }

/-- The post-action bookkeeping shared by every branch of `step`: bump the
final-round turn counter if `last_round` is set, then swap the two seats. -/
def HanabiEnv.finish (env : HanabiEnv) : HanabiEnv :=
  let env2 :=
    if env.last_round then
      { env with last_round_turns_taken := env.last_round_turns_taken + 1 }
    else env
  { env2 with
    player_hand := env2.opponent_hand
    opponent_hand := env2.player_hand
    player_hints := env2.opponent_hints
    opponent_hints := env2.player_hints }

/-- Validity of a hand's live cards (an invalid live id makes the source's
`card.color()` / array indexing panic). -/
def handValid (hd : Fin 5 → Card) : Prop :=
  ∀ i : Fin 5, (hd i).is_some = true → (hd i).id < 25

instance (hd : Fin 5 → Card) : Decidable (handValid hd) :=
  decidable_of_iff (∀ i : Fin 5, (hd i).is_some = true → (hd i).id < 25) Iff.rfl

/-- The `ColorHint` loop of `step`: narrow or prune each live opponent slot's
color mask and spend a blue token. -/
def HanabiEnv.applyColorHint (env : HanabiEnv) (c : Fin 5) : HanabiEnv :=
  { env with
    opponent_hints := fun i =>
      if (env.opponent_hand i).is_some then
        if (env.opponent_hand i).color_id = c.val then
          (env.opponent_hints i).set_true_color c
        else (env.opponent_hints i).disable_color c
      else env.opponent_hints i
    blue_tokens := env.blue_tokens - 1 }

/-- The `SuitHint` loop of `step`. -/
def HanabiEnv.applySuitHint (env : HanabiEnv) (s : Fin 5) : HanabiEnv :=
  { env with
    opponent_hints := fun i =>
      if (env.opponent_hand i).is_some then
        if (env.opponent_hand i).suit_id = s.val then
          (env.opponent_hints i).set_true_suit s
        else (env.opponent_hints i).disable_suit s
      else env.opponent_hints i
    blue_tokens := env.blue_tokens - 1 }

/-- The `Play` body of `step` once the slot is chosen: play onto the fireworks
if accepted (completing a color restores a blue token, saturating at 8),
otherwise discard and lose a black token; then draw into the slot. -/
def HanabiEnv.playAt (env : HanabiEnv) (i : Fin 5) (r2 : ℕ) : Option HanabiEnv :=
  let card := env.player_hand i
  if hid : card.id < 25 then
    let ci : Fin 25 := ⟨card.id, hid⟩
    if env.fireworks.acceptsF ci then
      let fw := env.fireworks.add_cardF ci
      let bt :=
        if fw.is_color_complete ⟨ci.val / 5, by omega⟩ then
          if env.blue_tokens + 1 > 8 then 8 else env.blue_tokens + 1
        else env.blue_tokens
      some (({ env with fireworks := fw, blue_tokens := bt } : HanabiEnv).draw_into r2 i)
    else
      some (({ env.discard_at i ci with
          black_tokens := env.black_tokens - 1 } : HanabiEnv).draw_into r2 i)
  else Option.none

/-- The `Discard` body of `step` once the slot is chosen: move the card to the
discard pile, draw into the slot, gain a blue token (no saturation here). -/
def HanabiEnv.discardAt2 (env : HanabiEnv) (i : Fin 5) (r2 : ℕ) : Option HanabiEnv :=
  let card := env.player_hand i
  if hid : card.id < 25 then
    some { (env.discard_at i ⟨card.id, hid⟩).draw_into r2 i with
        blue_tokens := env.blue_tokens + 1 }
  else Option.none

/-- `HanabiEnv::step`. `r1` models the uniform slot choice (`choose`), `r2` the
deck draw. `none` models a Rust abort: `choose(..).unwrap()` on an empty match
list, or an array index with an invalid card id. -/
def HanabiEnv.step (env : HanabiEnv) (a : Action) (r1 r2 : ℕ) : Option HanabiEnv :=
  match a with
  | Action.ColorHint c =>
      if handValid env.opponent_hand then some (env.applyColorHint c).finish
      else Option.none
  | Action.SuitHint s =>
      if handValid env.opponent_hand then some (env.applySuitHint s).finish
      else Option.none
  | Action.Play h =>
      let ms := hint_matches env.player_hints h
      if hms : ms = [] then Option.none
      else
        (env.playAt (ms.get ⟨r1 % ms.length, Nat.mod_lt _ (List.length_pos.mpr hms)⟩)
          r2).map HanabiEnv.finish
  | Action.Discard h =>
      let ms := hint_matches env.player_hints h
      if hms : ms = [] then Option.none
      else
        (env.discardAt2 (ms.get ⟨r1 % ms.length, Nat.mod_lt _ (List.length_pos.mpr hms)⟩)
          r2).map HanabiEnv.finish

/-- The ten successive draws of `HanabiEnv::random` (each `rdK` is the source's
`deck.pop(&mut rng)` result after `K` draws). -/
@[irreducible] def rd1 (f : ℕ → ℕ) : Card × CardCollection := CardCollection.starting_deck.pop (f 0)

@[irreducible] def rd2 (f : ℕ → ℕ) : Card × CardCollection := (rd1 f).2.pop (f 1)

@[irreducible] def rd3 (f : ℕ → ℕ) : Card × CardCollection := (rd2 f).2.pop (f 2)

@[irreducible] def rd4 (f : ℕ → ℕ) : Card × CardCollection := (rd3 f).2.pop (f 3)

@[irreducible] def rd5 (f : ℕ → ℕ) : Card × CardCollection := (rd4 f).2.pop (f 4)

@[irreducible] def rd6 (f : ℕ → ℕ) : Card × CardCollection := (rd5 f).2.pop (f 5)

@[irreducible] def rd7 (f : ℕ → ℕ) : Card × CardCollection := (rd6 f).2.pop (f 6)

@[irreducible] def rd8 (f : ℕ → ℕ) : Card × CardCollection := (rd7 f).2.pop (f 7)

@[irreducible] def rd9 (f : ℕ → ℕ) : Card × CardCollection := (rd8 f).2.pop (f 8)

@[irreducible] def rd10 (f : ℕ → ℕ) : Card × CardCollection := (rd9 f).2.pop (f 9)

/-- `HanabiEnv::random`: deal five cards to each seat off the starting deck,
drawing with successive values of the RNG stream `f`. -/
def HanabiEnv.random (f : ℕ → ℕ) : HanabiEnv :=
  { player_hand := ![(rd1 f).1, (rd2 f).1, (rd3 f).1, (rd4 f).1, (rd5 f).1]
    player_hints := fun _ => Hint.empty
    opponent_hand := ![(rd6 f).1, (rd7 f).1, (rd8 f).1, (rd9 f).1, (rd10 f).1]
    opponent_hints := fun _ => Hint.empty
    deck := (rd10 f).2
    discard := CardCollection.empty
    blue_tokens := 8
    black_tokens := 4
    fireworks := Fireworks.empty
    last_round := false
    last_round_turns_taken := 0 }

/-- `CardCollection::remove_hand`: remove each live card of the hand; an
invalid live id (impossible at the source's call sites) is a panic, `none`. -/
def removeHand (col : CardCollection) (hand : Fin 5 → Card) : Option CardCollection :=
  (List.finRange 5).foldlM
    (fun d j => if (hand j).is_some then d.removeCard (hand j).id else some d)
    col

/-- `CardCollection::remove_fireworks`: remove `Card::from_parts(c, s)` for
every `s < fireworks[c]`. -/
def removeFireworks (col : CardCollection) (fw : Fireworks) : Option CardCollection :=
  (List.finRange 5).foldlM
    (fun d c =>
      (List.range (fw.f c)).foldlM
        (fun d2 s => d2.removeCard (Card.parts_id c.val s))
        d)
    col

/-- The main loop of `determinize_hints`, with explicit fuel for the restart.
`k` is the RNG cursor: each successful `pop_match` consumes one draw. -/
def detGo (hints : Fin 5 → Hint) (f : ℕ → ℕ) :
    ℕ → CardCollection → (Fin 5 → Card) → ℚ → ℕ → ℕ →
    Option ((Fin 5 → Card) × ℚ × CardCollection)
  | 0, _, _, _, _, _ => Option.none
  | fuel + 1, deck, cards, prob, i, k =>
    if h5 : i < 5 then
      match deck.popMatch (hints ⟨i, h5⟩) (f k) with
      | (some (c, p), deck2) =>
          detGo hints f fuel deck2 (Function.update cards ⟨i, h5⟩ c) (prob * p)
            (nextIdx hints (i + 1)) (k + 1)
      | (Option.none, _) =>
          let deck2 := (List.finRange 5).foldl
            (fun d j => if (cards j).is_some then d.add (cards j) else d) deck
          match skipFirst hints 0 with
          | some i0 => detGo hints f fuel deck2 (fun _ => Card.none) 1 i0 k
          | Option.none => Option.none
    else some (cards, prob, deck)

/-- `determinize_hints`: skip to the first live hint (a panic if there is
none), then fill every live slot via `pop_match`, restarting on a dead end. -/
def determinize_hints (deck : CardCollection) (hints : Fin 5 → Hint) (f : ℕ → ℕ)
    (k fuel : ℕ) : Option ((Fin 5 → Card) × ℚ × CardCollection) :=
  match skipFirst hints 0 with
  | some i0 => detGo hints f fuel deck (fun _ => Card.none) 1 i0 k
  | Option.none => Option.none

/-- `HanabiEnv::sample_opponent_info`. -/
def HanabiEnv.sample_opponent_info (pub : PublicInfo) (priv : PrivateInfo) (f : ℕ → ℕ)
    (k fuel : ℕ) : Option (PrivateInfo × ℚ) :=
  let d0 := CardCollection.starting_deck.subtract pub.discard
  (removeFireworks d0 pub.fireworks).bind fun d1 =>
    (removeHand d1 priv.opponent_hand).bind fun d2 =>
      (determinize_hints d2 pub.player_hints f k fuel).map fun res =>
        (⟨res.1⟩, res.2.1)

/-- `HanabiEnv::new` (`Env::new`). -/
def HanabiEnv.new (pub : PublicInfo) (privP privO : PrivateInfo) : Option HanabiEnv :=
  let d0 := CardCollection.starting_deck.subtract pub.discard
  (removeFireworks d0 pub.fireworks).bind fun d1 =>
    (removeHand d1 privP.opponent_hand).bind fun d2 =>
      (removeHand d2 privO.opponent_hand).map fun deck =>
        { player_hand := privO.opponent_hand
          player_hints := pub.player_hints
          opponent_hand := privP.opponent_hand
          opponent_hints := pub.opponent_hints
          deck := deck
          discard := pub.discard
          blue_tokens := pub.blue_tokens
          black_tokens := pub.black_tokens
          fireworks := pub.fireworks
          last_round := pub.last_round
          last_round_turns_taken := pub.last_round_turns_taken }

/-- `Env::determinize`: sample the unknown hand, then reconstruct the full env. -/
def HanabiEnv.determinize (pub : PublicInfo) (priv : PrivateInfo) (f : ℕ → ℕ)
    (k fuel : ℕ) : Option (HanabiEnv × ℚ) :=
  (HanabiEnv.sample_opponent_info pub priv f k fuel).bind fun op =>
    (HanabiEnv.new pub priv op.1).map fun env => (env, op.2)

/-! ### Invariant definitions and concrete instances -/

/-- A one-card collection (a single White 1), used as a concrete input. -/
def oneW1 : CardCollection :=
  ⟨1, ![1, 0, 0, 0, 0, 0, 0, 0, 0, 0, 0, 0, 0, 0, 0, 0, 0, 0, 0, 0, 0, 0, 0, 0, 0]⟩

/-- A three-card collection (three copies of White 1), used as a concrete input. -/
def threeW1 : CardCollection :=
  ⟨3, ![3, 0, 0, 0, 0, 0, 0, 0, 0, 0, 0, 0, 0, 0, 0, 0, 0, 0, 0, 0, 0, 0, 0, 0, 0]⟩

/-- Three White 1 cards discarded (the first scenario of `test_future_reward`). -/
def fwDiscard1 : CardCollection :=
  ((CardCollection.empty.add (Card.from_parts 0 0)).add (Card.from_parts 0 0)).add
    (Card.from_parts 0 0)

/-- Additionally one Green 1 discarded. -/
def fwDiscard2 : CardCollection := fwDiscard1.add (Card.from_parts 4 0)

/-- Additionally two Yellow 3 discarded. -/
def fwDiscard3 : CardCollection :=
  (fwDiscard2.add (Card.from_parts 3 2)).add (Card.from_parts 3 2)

/-- Additionally one Red 5 discarded. -/
def fwDiscard4 : CardCollection := fwDiscard3.add (Card.from_parts 1 4)

/-- The Blue firework advanced to 2. -/
def fwBlue2 : Fireworks :=
  (Fireworks.empty.add_cardF ⟨10, by omega⟩).add_cardF ⟨11, by omega⟩

/-- A hint array whose only live hint sits in slot 2. -/
def hintsSlot2 : Fin 5 → Hint := fun j => if j.val = 2 then Hint.empty else Hint.none

/-- Number of live (card-holding) slots of a hand. -/
def liveHand (hd : Fin 5 → Card) : ℕ := ∑ i, if (hd i).is_some = true then 1 else 0

/-- The conservation invariant: all 50 cards are accounted for. -/
def conservation (env : HanabiEnv) : Prop :=
  env.discard.total + env.deck.total + liveHand env.player_hand +
    liveHand env.opponent_hand + env.fireworks.total = 50

instance (env : HanabiEnv) : Decidable (conservation env) :=
  decidable_of_iff (env.discard.total + env.deck.total + liveHand env.player_hand +
    liveHand env.opponent_hand + env.fireworks.total = 50) Iff.rfl

/-- The data-model invariant of a hand (spec §3): a slot holds a card exactly
when its hint is live. -/
def slotConsistent (env : HanabiEnv) : Prop :=
  ∀ i : Fin 5, ((env.player_hand i).is_some = (env.player_hints i).is_some) ∧
    ((env.opponent_hand i).is_some = (env.opponent_hints i).is_some)

instance (env : HanabiEnv) : Decidable (slotConsistent env) :=
  decidable_of_iff (∀ i : Fin 5,
    ((env.player_hand i).is_some = (env.player_hints i).is_some) ∧
      ((env.opponent_hand i).is_some = (env.opponent_hints i).is_some)) Iff.rfl

/-- A 40-card deck: the starting deck minus the ten cards of `envBase`'s hands. -/
def deck40 : CardCollection :=
  ⟨40, ![0, 2, 2, 2, 1,  1, 2, 2, 2, 1,  0, 2, 2, 2, 1,  1, 2, 2, 2, 1,  3, 2, 2, 2, 1]⟩

/-- A concrete mid-game environment: the player holds three White 1 and two
Red 1, the opponent three Blue 1 and two Yellow 1, deck `deck40`. -/
def envBase : HanabiEnv :=
  { player_hand := ![Card.mk 0, Card.mk 0, Card.mk 0, Card.mk 5, Card.mk 5]
    player_hints := fun _ => Hint.empty
    opponent_hand := ![Card.mk 10, Card.mk 10, Card.mk 10, Card.mk 15, Card.mk 15]
    opponent_hints := fun _ => Hint.empty
    deck := deck40
    discard := CardCollection.empty
    blue_tokens := 8
    black_tokens := 4
    fireworks := Fireworks.empty
    last_round := false
    last_round_turns_taken := 0 }

/-- Every live slot's hint matches its card, in both hands. -/
def hintSound (env : HanabiEnv) : Prop :=
  ∀ i : Fin 5, ((env.player_hand i).is_some = true →
      (env.player_hints i).matches (env.player_hand i) = true) ∧
    ((env.opponent_hand i).is_some = true →
      (env.opponent_hints i).matches (env.opponent_hand i) = true)

instance (env : HanabiEnv) : Decidable (hintSound env) :=
  decidable_of_iff (∀ i : Fin 5, ((env.player_hand i).is_some = true →
      (env.player_hints i).matches (env.player_hand i) = true) ∧
    ((env.opponent_hand i).is_some = true →
      (env.opponent_hints i).matches (env.opponent_hand i) = true)) Iff.rfl

/-- Environments reachable from a fresh random deal by legal actions. -/
inductive Reachable : HanabiEnv → Prop
  | base (f : ℕ → ℕ) : Reachable (HanabiEnv.random f)
  | step (env env' : HanabiEnv) (a : Action) (r1 r2 : ℕ) : Reachable env →
      a ∈ env.actions → env.step a r1 r2 = some env' → Reachable env'

/-- Every live slot's hint masks stay below the `none` sentinel bit. -/
def hintsValid (env : HanabiEnv) : Prop :=
  ∀ i : Fin 5, ((env.player_hand i).is_some = true →
      (env.player_hints i).color < 32 ∧ (env.player_hints i).suit < 32) ∧
    ((env.opponent_hand i).is_some = true →
      (env.opponent_hints i).color < 32 ∧ (env.opponent_hints i).suit < 32)

instance (env : HanabiEnv) : Decidable (hintsValid env) :=
  decidable_of_iff (∀ i : Fin 5, ((env.player_hand i).is_some = true →
      (env.player_hints i).color < 32 ∧ (env.player_hints i).suit < 32) ∧
    ((env.opponent_hand i).is_some = true →
      (env.opponent_hints i).color < 32 ∧ (env.opponent_hints i).suit < 32)) Iff.rfl

/-- The deck-empty environment: `envBase` with its 40 undealt cards moved to
the discard pile and three blue tokens left. -/
def envC6 : HanabiEnv :=
  { envBase with deck := CardCollection.empty, discard := deck40, blue_tokens := 3 }

/-- `envC6` after the final round has been triggered and one of the two
closing turns taken. -/
def envC6b : HanabiEnv :=
  { envC6 with last_round := true, last_round_turns_taken := 1 }

def pubC1 : PublicInfo :=
  { player_hints := fun _ => Hint.empty
    opponent_hints := fun _ => Hint.empty
    discard := CardCollection.empty
    blue_tokens := 8
    black_tokens := 4
    fireworks := Fireworks.empty
    last_round := false
    last_round_turns_taken := 0 }

def privC1 : PrivateInfo := ⟨![Card.mk 0, Card.mk 0, Card.mk 0, Card.mk 1, Card.mk 1]⟩

/-! ### Card collection lemmas -/

/-- The multiset invariant of `CardCollection`: the cached total is the tally sum. -/
def CardCollection.wf (col : CardCollection) : Prop := col.total = ∑ i, col.counts i

instance (col : CardCollection) : Decidable col.wf :=
  decidable_of_iff (col.total = ∑ i, col.counts i) Iff.rfl

/-- `counts` reindexed over `ℕ` (zero out of range), for cumulative-sum reasoning. -/
def cts (counts : Fin 25 → ℕ) (t : ℕ) : ℕ := if h : t < 25 then counts ⟨t, h⟩ else 0

theorem sum_cts (counts : Fin 25 → ℕ) :
    ∑ t ∈ Finset.range 25, cts counts t = ∑ i, counts i := by
  rw [← Fin.sum_univ_eq_sum_range]
  exact Finset.sum_congr rfl fun i _ => by simp [cts]

theorem goFindCard_some_iff (counts : Fin 25 → ℕ) (r : ℕ) :
    ∀ (fuel i acc : ℕ), 25 ≤ fuel + i → acc ≤ r → ∀ j : Fin 25,
      (goFindCard counts r fuel i acc = some j ↔
        i ≤ j.val ∧ acc + (∑ t ∈ Finset.Ico i j.val, cts counts t) ≤ r ∧
          r < acc + ∑ t ∈ Finset.Ico i (j.val + 1), cts counts t) := by
  intro fuel
  induction fuel with
  | zero =>
    intro i acc h25 hacc j
    constructor
    · intro hc; exact Option.noConfusion hc
    · rintro ⟨h1, -, -⟩
      exact absurd (lt_of_le_of_lt h1 j.isLt) (by omega)
  | succ fuel ih =>
    intro i acc h25 hacc j
    rw [goFindCard]
    by_cases h : i < 25
    · rw [dif_pos h]
      by_cases hr : r < acc + counts ⟨i, h⟩
      · rw [if_pos hr]
        constructor
        · intro hj
          have hji : j = ⟨i, h⟩ := (Option.some_inj.mp hj).symm
          subst hji
          refine ⟨le_refl i, by simpa using hacc, ?_⟩
          rw [Finset.sum_Ico_succ_top (le_refl i)]
          simpa [cts, h] using hr
        · rintro ⟨h1, h2, _⟩
          rcases Nat.eq_or_lt_of_le h1 with he | hlt
          · exact congrArg some (Fin.ext he)
          · exfalso
            have hmem : i ∈ Finset.Ico i j.val := Finset.mem_Ico.mpr ⟨le_refl i, hlt⟩
            have := Finset.single_le_sum (f := cts counts) (fun t _ => Nat.zero_le _) hmem
            have hcts : cts counts i = counts ⟨i, h⟩ := by simp [cts, h]
            omega
      · rw [if_neg hr]
        rw [ih (i + 1) (acc + counts ⟨i, h⟩) (by omega) (by omega) j]
        constructor
        · rintro ⟨h1, h2, h3⟩
          have hcts : cts counts i = counts ⟨i, h⟩ := by simp [cts, h]
          have hbot : ∑ t ∈ Finset.Ico i j.val, cts counts t
              = cts counts i + ∑ t ∈ Finset.Ico (i + 1) j.val, cts counts t :=
            Finset.sum_eq_sum_Ico_succ_bot (by omega) _
          have hbot2 : ∑ t ∈ Finset.Ico i (j.val + 1), cts counts t
              = cts counts i + ∑ t ∈ Finset.Ico (i + 1) (j.val + 1), cts counts t :=
            Finset.sum_eq_sum_Ico_succ_bot (by omega) _
          exact ⟨by omega, by omega, by omega⟩
        · rintro ⟨h1, h2, h3⟩
          have hcts : cts counts i = counts ⟨i, h⟩ := by simp [cts, h]
          rcases Nat.eq_or_lt_of_le h1 with he | hlt
          · exfalso
            have : Finset.Ico i (j.val + 1) = {i} := by
              rw [← he]; rw [Nat.Ico_succ_right, Finset.Icc_self]
            rw [this, Finset.sum_singleton] at h3
            omega
          · have hbot : ∑ t ∈ Finset.Ico i j.val, cts counts t
                = cts counts i + ∑ t ∈ Finset.Ico (i + 1) j.val, cts counts t :=
              Finset.sum_eq_sum_Ico_succ_bot (by omega) _
            have hbot2 : ∑ t ∈ Finset.Ico i (j.val + 1), cts counts t
                = cts counts i + ∑ t ∈ Finset.Ico (i + 1) (j.val + 1), cts counts t :=
              Finset.sum_eq_sum_Ico_succ_bot (by omega) _
            exact ⟨by omega, by omega, by omega⟩
    · rw [dif_neg h]
      constructor
      · intro hc; exact Option.noConfusion hc
      · rintro ⟨h1, _, _⟩
        exact absurd (lt_of_le_of_lt h1 j.isLt) h

theorem findCard_some_iff (counts : Fin 25 → ℕ) (r : ℕ) (j : Fin 25) :
    findCard counts r 0 0 = some j ↔
      (∑ t ∈ Finset.Ico 0 j.val, cts counts t) ≤ r ∧
        r < ∑ t ∈ Finset.Ico 0 (j.val + 1), cts counts t := by
  rw [findCard]
  rw [goFindCard_some_iff counts r (25 - 0) 0 0 (by omega) (Nat.zero_le r) j]
  constructor
  · rintro ⟨-, h2, h3⟩; exact ⟨by omega, by omega⟩
  · rintro ⟨h2, h3⟩; exact ⟨Nat.zero_le _, by omega, by omega⟩

theorem goFindCard_some_of_lt (counts : Fin 25 → ℕ) (r : ℕ) :
    ∀ (fuel i acc : ℕ), 25 ≤ fuel + i → acc ≤ r →
      r < acc + ∑ t ∈ Finset.Ico i 25, cts counts t →
      ∃ j, goFindCard counts r fuel i acc = some j := by
  intro fuel
  induction fuel with
  | zero =>
    intro i acc h25 hacc hlt
    exfalso
    have : Finset.Ico i 25 = ∅ := Finset.Ico_eq_empty (by omega)
    rw [this] at hlt
    simp at hlt
    omega
  | succ fuel ih =>
    intro i acc h25 hacc hlt
    rw [goFindCard]
    by_cases h : i < 25
    · rw [dif_pos h]
      by_cases hr : r < acc + counts ⟨i, h⟩
      · exact ⟨⟨i, h⟩, if_pos hr⟩
      · rw [if_neg hr]
        refine ih (i + 1) (acc + counts ⟨i, h⟩) (by omega) (by omega) ?_
        have hcts : cts counts i = counts ⟨i, h⟩ := by simp [cts, h]
        have hbot : ∑ t ∈ Finset.Ico i 25, cts counts t
            = cts counts i + ∑ t ∈ Finset.Ico (i + 1) 25, cts counts t :=
          Finset.sum_eq_sum_Ico_succ_bot (by omega) _
        omega
    · exfalso
      have : Finset.Ico i 25 = ∅ := Finset.Ico_eq_empty (by omega)
      rw [this] at hlt
      simp at hlt
      omega

theorem findCard_some_of_lt (counts : Fin 25 → ℕ) (r : ℕ)
    (hlt : r < ∑ t ∈ Finset.Ico 0 25, cts counts t) :
    ∃ j, findCard counts r 0 0 = some j := by
  rw [findCard]
  exact goFindCard_some_of_lt counts r (25 - 0) 0 0 (by omega) (Nat.zero_le r)
    (by omega)

theorem findCard_counts_pos (counts : Fin 25 → ℕ) (r : ℕ) (j : Fin 25)
    (h : findCard counts r 0 0 = some j) : 0 < counts j := by
  rw [findCard_some_iff counts r j] at h
  obtain ⟨h2, h3⟩ := h
  rw [Finset.sum_Ico_succ_top (Nat.zero_le _)] at h3
  have : cts counts j.val = counts j := by simp [cts, j.isLt]
  omega

theorem pop_of_total_zero (col : CardCollection) (r : ℕ) (h : col.total = 0) :
    col.pop r = (Card.none, col) := by
  rw [CardCollection.pop, if_neg (by omega)]

theorem pop_of_total_pos (col : CardCollection) (r : ℕ) (hwf : col.wf)
    (hpos : 0 < col.total) :
    ∃ j : Fin 25, 0 < col.counts j ∧ col.pop r = (Card.mk j.val, col.removeF j) := by
  have hr : r % col.total < col.total := Nat.mod_lt _ hpos
  have hlt : r % col.total < ∑ t ∈ Finset.Ico 0 25, cts col.counts t := by
    rw [← Finset.range_eq_Ico, sum_cts]
    have := hwf
    rw [CardCollection.wf] at this
    omega
  obtain ⟨j, hj⟩ := findCard_some_of_lt col.counts (r % col.total) hlt
  refine ⟨j, findCard_counts_pos _ _ _ hj, ?_⟩
  rw [CardCollection.pop, if_pos hpos, hj]

theorem removeF_wf (col : CardCollection) (j : Fin 25) (hwf : col.wf)
    (hj : 0 < col.counts j) : (col.removeF j).wf := by
  rw [CardCollection.wf] at hwf ⊢
  rw [CardCollection.removeF]
  simp only
  rw [Finset.sum_update_of_mem (Finset.mem_univ j)]
  rw [← Finset.add_sum_erase _ _ (Finset.mem_univ j), Finset.erase_eq] at hwf
  omega

/-- With the invariant, `pop` returns the `none` sentinel exactly on the empty
collection; on success it removes the drawn identity, and over the `total`
possible draw values each identity is drawn exactly its tally many times. -/
theorem pop_uniform (col : CardCollection) (hwf : col.wf) (j : Fin 25) :
    ((Finset.range col.total).filter (fun r => (col.pop r).1 = Card.mk j.val)).card
      = col.counts j := by
  rcases Nat.eq_zero_or_pos col.total with h0 | hpos
  · rw [h0]
    simp only [Finset.range_zero, Finset.filter_empty, Finset.card_empty]
    rw [CardCollection.wf, h0] at hwf
    have := Finset.sum_eq_zero_iff.mp hwf.symm j (Finset.mem_univ j)
    omega
  · have hS : ∀ v, v ≤ 25 → ∑ t ∈ Finset.Ico 0 v, cts col.counts t ≤ col.total := by
      intro v hv
      rw [CardCollection.wf] at hwf
      rw [hwf, ← sum_cts, Finset.range_eq_Ico]
      exact Finset.sum_le_sum_of_subset (Finset.Ico_subset_Ico (le_refl 0) hv)
    have hkey : ∀ r, r < col.total → ((col.pop r).1 = Card.mk j.val ↔
        (∑ t ∈ Finset.Ico 0 j.val, cts col.counts t) ≤ r ∧
          r < ∑ t ∈ Finset.Ico 0 (j.val + 1), cts col.counts t) := by
      intro r hr
      have hmod : r % col.total = r := Nat.mod_eq_of_lt hr
      have hlt : r < ∑ t ∈ Finset.Ico 0 25, cts col.counts t := by
        rw [← Finset.range_eq_Ico, sum_cts]
        rw [CardCollection.wf] at hwf
        omega
      obtain ⟨j2, hj2⟩ := findCard_some_of_lt col.counts r hlt
      have hpop : col.pop r = (Card.mk j2.val, col.removeF j2) := by
        rw [CardCollection.pop, if_pos hpos, hmod, hj2]
      rw [hpop]
      rw [findCard_some_iff col.counts r j2] at hj2
      obtain ⟨ha, hb⟩ := hj2
      constructor
      · intro hv
        have hj2j : j2 = j := Fin.ext (by simpa [Card.mk.injEq] using hv)
        subst hj2j
        exact ⟨ha, hb⟩
      · rintro ⟨ha2, hb2⟩
        by_contra hne
        have hvne : j2.val ≠ j.val := by
          intro hv
          exact hne (by simp [Card.mk.injEq, hv])
        rcases Nat.lt_or_ge j2.val j.val with hl | hg
        · have : ∑ t ∈ Finset.Ico 0 (j2.val + 1), cts col.counts t ≤
              ∑ t ∈ Finset.Ico 0 j.val, cts col.counts t :=
            Finset.sum_le_sum_of_subset (Finset.Ico_subset_Ico (le_refl 0) (by omega))
          omega
        · have : ∑ t ∈ Finset.Ico 0 (j.val + 1), cts col.counts t ≤
              ∑ t ∈ Finset.Ico 0 j2.val, cts col.counts t :=
            Finset.sum_le_sum_of_subset (Finset.Ico_subset_Ico (le_refl 0) (by omega))
          omega
    have hset : (Finset.range col.total).filter (fun r => (col.pop r).1 = Card.mk j.val)
        = Finset.Ico (∑ t ∈ Finset.Ico 0 j.val, cts col.counts t)
            (∑ t ∈ Finset.Ico 0 (j.val + 1), cts col.counts t) := by
      ext r
      simp only [Finset.mem_filter, Finset.mem_range, Finset.mem_Ico]
      constructor
      · rintro ⟨hr, hp⟩
        exact (hkey r hr).mp hp
      · rintro ⟨ha, hb⟩
        have hr : r < col.total :=
          lt_of_lt_of_le hb (hS (j.val + 1) (by omega))
        exact ⟨hr, (hkey r hr).mpr ⟨ha, hb⟩⟩
    rw [hset, Nat.card_Ico]
    rw [Finset.sum_Ico_succ_top (Nat.zero_le _)]
    simp only [Nat.add_sub_cancel_left]
    simp [cts, j.isLt]

/-! ### Restriction and `pop_match` lemmas -/

theorem restrictStep_counts (col : CardCollection) (h : Hint) (m : CardCollection)
    (a i : Fin 25) :
    (restrictStep col h m a).counts i =
      if i = a ∧ 0 < col.counts a ∧ ¬(h.matches (Card.mk a.val) = true) then 0
      else m.counts i := by
  rw [restrictStep]
  by_cases hC : 0 < col.counts a ∧ ¬(h.matches (Card.mk a.val) = true)
  · rw [if_pos hC]
    by_cases hia : i = a
    · subst hia
      simp [hC]
    · simp [Function.update_noteq hia, hia]
  · rw [if_neg hC]
    rw [if_neg (fun hcon => hC hcon.2)]

theorem restrictStep_total (col : CardCollection) (h : Hint) (m : CardCollection)
    (a : Fin 25) :
    (restrictStep col h m a).total =
      if 0 < col.counts a ∧ ¬(h.matches (Card.mk a.val) = true) then m.total - m.counts a
      else m.total := by
  rw [restrictStep]
  split <;> rfl

theorem restrictStep_wf (col : CardCollection) (h : Hint) (m : CardCollection) (a : Fin 25)
    (hm : m.wf) : (restrictStep col h m a).wf := by
  rw [CardCollection.wf] at hm ⊢
  rw [restrictStep]
  split
  · simp only
    rw [Finset.sum_update_of_mem (Finset.mem_univ a)]
    rw [← Finset.add_sum_erase _ _ (Finset.mem_univ a), Finset.erase_eq] at hm
    omega
  · exact hm

theorem restrict_fold_counts (col : CardCollection) (h : Hint) (l : List (Fin 25))
    (m : CardCollection) (i : Fin 25) :
    ((l.foldl (restrictStep col h) m).counts i) =
      if i ∈ l ∧ 0 < col.counts i ∧ ¬(h.matches (Card.mk i.val) = true) then 0
      else m.counts i := by
  induction l generalizing m with
  | nil => simp
  | cons a l ih =>
    rw [List.foldl_cons, ih, restrictStep_counts]
    by_cases hC : 0 < col.counts i ∧ ¬(h.matches (Card.mk i.val) = true)
    · by_cases hil : i ∈ l
      · rw [if_pos ⟨hil, hC⟩, if_pos ⟨List.mem_cons_of_mem a hil, hC⟩]
      · rw [if_neg (fun hcon => hil hcon.1)]
        by_cases hia : i = a
        · subst hia
          rw [if_pos ⟨rfl, hC⟩, if_pos ⟨List.mem_cons_self i l, hC⟩]
        · rw [if_neg (fun hcon => hia hcon.1),
            if_neg (fun hcon => hil ((List.mem_cons.mp hcon.1).resolve_left hia))]
    · by_cases hia : i = a
      · subst hia
        rw [if_neg (fun hcon => hC hcon.2), if_neg (fun hcon => hC hcon.2),
          if_neg (fun hcon => hC hcon.2)]
      · rw [if_neg (fun hcon : i ∈ l ∧ _ => hC hcon.2),
          if_neg (fun hcon => hia hcon.1),
          if_neg (fun hcon : i ∈ a :: l ∧ _ => hC hcon.2)]

theorem restrict_counts (col : CardCollection) (h : Hint) (i : Fin 25) :
    (col.restrictToHint h).counts i =
      if 0 < col.counts i ∧ ¬(h.matches (Card.mk i.val) = true) then 0
      else col.counts i := by
  rw [CardCollection.restrictToHint, restrict_fold_counts]
  simp [List.mem_finRange]

theorem restrict_wf (col : CardCollection) (h : Hint) (hwf : col.wf) :
    (col.restrictToHint h).wf := by
  rw [CardCollection.restrictToHint]
  have : ∀ (l : List (Fin 25)) (m : CardCollection), m.wf →
      (l.foldl (restrictStep col h) m).wf := by
    intro l
    induction l with
    | nil => intro m hm; exact hm
    | cons a l ih => intro m hm; exact ih _ (restrictStep_wf col h m a hm)
  exact this _ col hwf

theorem restrict_counts_le (col : CardCollection) (h : Hint) (i : Fin 25) :
    (col.restrictToHint h).counts i ≤ col.counts i := by
  rw [restrict_counts]
  split <;> omega

/-- On success, `pop_match` hands back a matching, present identity; it removes
it from the original collection, and the reported weight is the restricted
tally of the drawn identity (before removal) over the restricted total
(before removal) — equivalently `(m + 1) / R` for `m` the restricted tally
after removal and `R` the restricted total before removal. -/
theorem popMatch_some_spec (col : CardCollection) (h : Hint) (r : ℕ) (c : Card) (q : ℚ)
    (hp : (col.popMatch h r).1 = some (c, q)) :
    ∃ j : Fin 25, c = Card.mk j.val ∧ h.matches c = true ∧ 0 < col.counts j ∧
      (col.popMatch h r).2 = col.removeF j ∧
      q = ((col.restrictToHint h).counts j : ℚ) / ((col.restrictToHint h).total : ℚ) := by
  rw [CardCollection.popMatch] at hp ⊢
  simp only at hp ⊢
  by_cases hpos : 0 < (col.restrictToHint h).total
  · rw [if_pos hpos] at hp ⊢
    rcases hfc : findCard (col.restrictToHint h).counts
        (r % (col.restrictToHint h).total) 0 0 with _ | j
    · rw [hfc] at hp
      exact Option.noConfusion hp
    · rw [hfc] at hp
      have hp2 : some (Card.mk j.val,
          ((((col.restrictToHint h).removeF j).counts j + 1 : ℕ) : ℚ) /
            ((((col.restrictToHint h).removeF j).total + 1 : ℕ) : ℚ)) = some (c, q) := hp
      simp only [Option.some_inj, Prod.mk.injEq] at hp2
      obtain ⟨hc, hq⟩ := hp2
      have hcnt : 0 < (col.restrictToHint h).counts j := findCard_counts_pos _ _ _ hfc
      have hmatch : h.matches (Card.mk j.val) = true := by
        by_contra hm
        have hrc := restrict_counts col h j
        rw [if_pos ⟨lt_of_lt_of_le hcnt (restrict_counts_le col h j), hm⟩] at hrc
        omega
      have hcol : 0 < col.counts j := lt_of_lt_of_le hcnt (restrict_counts_le col h j)
      refine ⟨j, hc.symm, hc ▸ hmatch, hcol, rfl, ?_⟩
      rw [← hq]
      have h1 : ((col.restrictToHint h).removeF j).counts j + 1
          = (col.restrictToHint h).counts j := by
        rw [CardCollection.removeF]
        simp only [Function.update_same]
        omega
      have h2 : ((col.restrictToHint h).removeF j).total + 1
          = (col.restrictToHint h).total := by
        rw [CardCollection.removeF]
        simp only
        omega
      rw [h1, h2]
  · rw [if_neg hpos] at hp
    exact Option.noConfusion hp

/-- With the multiset invariant, `pop_match` returns `None` exactly when no
present identity matches the hint. -/
theorem popMatch_none_iff (col : CardCollection) (h : Hint) (r : ℕ) (hwf : col.wf) :
    (col.popMatch h r).1 = Option.none ↔
      ∀ i : Fin 25, 0 < col.counts i → h.matches (Card.mk i.val) = false := by
  have hmwf := restrict_wf col h hwf
  rw [CardCollection.popMatch]
  simp only
  by_cases hpos : 0 < (col.restrictToHint h).total
  · rw [if_pos hpos]
    have hlt : r % (col.restrictToHint h).total <
        ∑ t ∈ Finset.Ico 0 25, cts (col.restrictToHint h).counts t := by
      rw [← Finset.range_eq_Ico, sum_cts]
      rw [CardCollection.wf] at hmwf
      have := Nat.mod_lt r hpos
      omega
    obtain ⟨j, hj⟩ := findCard_some_of_lt _ _ hlt
    rw [hj]
    simp only [reduceCtorEq, false_iff]
    intro hall
    rw [CardCollection.wf] at hmwf
    have hz : ∀ i : Fin 25, (col.restrictToHint h).counts i = 0 := by
      intro i
      rw [restrict_counts]
      split
      · rfl
      · rcases Nat.eq_zero_or_pos (col.counts i) with h0 | hpos2
        · exact h0
        · exfalso
          have := hall i hpos2
          simp_all
    have : (col.restrictToHint h).total = 0 := by
      rw [hmwf]
      exact Finset.sum_eq_zero fun i _ => hz i
    omega
  · rw [if_neg hpos]
    simp only [true_iff]
    intro i hpos2
    rw [CardCollection.wf] at hmwf
    have hz : (col.restrictToHint h).counts i = 0 := by
      by_contra hnz
      have hle : (col.restrictToHint h).counts i ≤ (col.restrictToHint h).total := by
        rw [hmwf]
        exact Finset.single_le_sum (f := fun t => (col.restrictToHint h).counts t)
          (fun t _ => Nat.zero_le _) (Finset.mem_univ i)
      omega
    rw [restrict_counts] at hz
    by_contra hm
    rw [if_neg ?_] at hz
    · omega
    · rintro ⟨-, hnm⟩
      exact hnm (by simpa using hm)

/-! ### Skip-loop lemmas -/

theorem goSkip_spec (hints : Fin 5 → Hint) :
    ∀ fuel i, 5 ≤ fuel + i →
    (goSkip hints fuel i = Option.none ↔
        ∀ j : Fin 5, i ≤ j.val → (hints j).is_none = true) ∧
    (∀ v, goSkip hints fuel i = some v → ∃ h5 : v < 5, i ≤ v ∧
      (hints ⟨v, h5⟩).is_some = true ∧
      ∀ j : Fin 5, i ≤ j.val → j.val < v → (hints j).is_none = true) := by
  intro fuel
  induction fuel with
  | zero =>
    intro i h5i
    constructor
    · constructor
      · intro _ j hij
        exact absurd (lt_of_le_of_lt hij j.isLt) (by omega)
      · intro _; rfl
    · intro v hv; exact Option.noConfusion hv
  | succ fuel ih =>
    intro i h5i
    rw [goSkip]
    by_cases h : i < 5
    · rw [dif_pos h]
      by_cases hn : (hints ⟨i, h⟩).is_none
      · rw [if_pos hn]
        obtain ⟨ih1, ih2⟩ := ih (i + 1) (by omega)
        constructor
        · rw [ih1]
          constructor
          · intro hall j hij
            rcases Nat.eq_or_lt_of_le hij with he | hlt
            · have : j = ⟨i, h⟩ := Fin.ext he.symm
              rw [this]; exact hn
            · exact hall j hlt
          · intro hall j hij
            exact hall j (by omega)
        · intro v hv
          obtain ⟨h5, hle, hsome, hbefore⟩ := ih2 v hv
          refine ⟨h5, by omega, hsome, ?_⟩
          intro j hij hjv
          rcases Nat.eq_or_lt_of_le hij with he | hlt
          · have : j = ⟨i, h⟩ := Fin.ext he.symm
            rw [this]; exact hn
          · exact hbefore j hlt hjv
      · rw [if_neg hn]
        constructor
        · constructor
          · intro hc; exact Option.noConfusion hc
          · intro hall
            exact absurd (hall ⟨i, h⟩ (le_refl i)) hn
        · intro v hv
          have hvi : i = v := Option.some_inj.mp hv
          cases hvi
          have hx : (hints ⟨i, h⟩).is_none = false := by
            cases hxx : (hints ⟨i, h⟩).is_none
            · rfl
            · exact absurd hxx hn
          refine ⟨h, le_refl i, ?_, ?_⟩
          · rw [Hint.is_some, hx]; rfl
          · intro j hij hjv; omega
    · rw [dif_neg h]
      constructor
      · constructor
        · intro _ j hij
          exact absurd (lt_of_le_of_lt hij j.isLt) h
        · intro _; rfl
      · intro v hv; exact Option.noConfusion hv

theorem skipFirst_spec (hints : Fin 5 → Hint) :
    (skipFirst hints 0 = Option.none ↔ ∀ j : Fin 5, (hints j).is_none = true) ∧
    (∀ v, skipFirst hints 0 = some v → ∃ h5 : v < 5,
      (hints ⟨v, h5⟩).is_some = true ∧
      ∀ j : Fin 5, j.val < v → (hints j).is_none = true) := by
  obtain ⟨h1, h2⟩ := goSkip_spec hints (5 - 0) 0 (by omega)
  rw [skipFirst]
  constructor
  · rw [h1]
    exact ⟨fun hall j => hall j (Nat.zero_le _), fun hall j _ => hall j⟩
  · intro v hv
    obtain ⟨h5, -, hsome, hbefore⟩ := h2 v hv
    exact ⟨h5, hsome, fun j hj => hbefore j (Nat.zero_le _) hj⟩

/-! ### Claims about the card collection and helper routines -/

/-- Claim C2, counterexample: on a collection holding a single White 1 and the
all-allowing hint, `pop_match` returns weight `1` (its restricted tally before
removal over the restricted total before removal), while the claim's formula
`m / (R + 1)` with `m` the tally after removal (`0`) and `R` the restricted
total before removal (`1`) predicts `0 / 2 = 0 ≠ 1`. -/
theorem claim2_counterexample :
    (oneW1.popMatch Hint.empty 0).1 = some (Card.mk 0, ((1 : ℕ) : ℚ) / ((1 : ℕ) : ℚ)) ∧
      ((1 : ℕ) : ℚ) / ((1 : ℕ) : ℚ) ≠ 0 / (1 + 1) := by
  constructor
  · rfl
  · norm_num

/-- Claim C2 (amended): with the multiset invariant, `pop_match` returns `None`
iff no present card instance matches the hint; on success it removes the drawn
card from the collection and returns weight `(m + 1) / R`, where `m` is the
restricted tally of the drawn identity after removal and `R` the restricted
total before removal — stated below as restricted tally before removal over
restricted total before removal. -/
theorem claim2_pop_match (col : CardCollection) (hwf : col.wf) (h : Hint) (r : ℕ) :
    ((col.popMatch h r).1 = Option.none ↔
      ∀ i : Fin 25, 0 < col.counts i → h.matches (Card.mk i.val) = false) ∧
    (∀ c q, (col.popMatch h r).1 = some (c, q) →
      ∃ j : Fin 25, c = Card.mk j.val ∧ h.matches c = true ∧ 0 < col.counts j ∧
        (col.popMatch h r).2 = col.removeF j ∧
        q = ((col.restrictToHint h).counts j : ℚ) / ((col.restrictToHint h).total : ℚ)) :=
  ⟨popMatch_none_iff col h r hwf, fun c q hp => popMatch_some_spec col h r c q hp⟩

/-- Witness for claim C2's theorem at a concrete collection and hint. -/
theorem claim2_witness :
    oneW1.wf ∧ (oneW1.popMatch Hint.none 0).1 = Option.none :=
  ⟨by decide, (claim2_pop_match oneW1 (by decide) Hint.none 0).1.mpr (by decide)⟩

/-- Claim C9: with the multiset invariant, `pop` returns the `none` sentinel
iff the collection is empty; otherwise it removes and returns a present card
instance, and the choice is uniform over instances: over the `total` possible
draws each identity is selected exactly its tally many times. -/
theorem claim9_pop (col : CardCollection) (hwf : col.wf) (r : ℕ) :
    ((col.pop r).1 = Card.none ↔ col.total = 0) ∧
    (col.total = 0 → col.pop r = (Card.none, col)) ∧
    (0 < col.total → ∃ j : Fin 25, 0 < col.counts j ∧
        col.pop r = (Card.mk j.val, col.removeF j)) ∧
    (∀ j : Fin 25,
      ((Finset.range col.total).filter (fun s => (col.pop s).1 = Card.mk j.val)).card
        = col.counts j) := by
  refine ⟨?_, fun h0 => pop_of_total_zero col r h0,
    fun hpos => pop_of_total_pos col r hwf hpos, fun j => pop_uniform col hwf j⟩
  rcases Nat.eq_zero_or_pos col.total with h0 | hpos
  · rw [pop_of_total_zero col r h0]
    simpa using h0
  · obtain ⟨j, -, hpop⟩ := pop_of_total_pos col r hwf hpos
    rw [hpop]
    simp only [Card.none, Card.mk.injEq]
    constructor
    · intro hj; omega
    · intro hc; omega

/-- Witness for claim C9's theorem at a concrete collection and identity. -/
theorem claim9_witness :
    threeW1.wf ∧
      ((Finset.range threeW1.total).filter
          (fun s => (threeW1.pop s).1 = Card.mk (0 : ℕ))).card
        = threeW1.counts ⟨0, by omega⟩ :=
  ⟨by decide, (claim9_pop threeW1 (by decide) 0).2.2.2 ⟨0, by omega⟩⟩

/-- Claim C8: the exact `possible_future_rewards` values of the source's
`test_future_reward` scenario chain. -/
theorem claim8_future_rewards :
    possible_future_rewards Fireworks.empty CardCollection.empty = 25 ∧
    possible_future_rewards Fireworks.empty fwDiscard1 = 20 ∧
    possible_future_rewards Fireworks.empty fwDiscard2 = 20 ∧
    possible_future_rewards Fireworks.empty fwDiscard3 = 17 ∧
    possible_future_rewards Fireworks.empty fwDiscard4 = 16 ∧
    possible_future_rewards fwBlue2 fwDiscard4 = 14 := by
  refine ⟨by decide, by decide, by decide, by decide, by decide, by decide⟩

/-- Claim C10: the first slot-skipping loop of `determinize_hints` panics (an
out-of-bounds read of `hints[5]`) exactly when all five hints are `none`;
whenever some hint is live it stops at the first live index, which is in
`0..4`, having read only `none` hints before it. -/
theorem claim10_skip_loop (hints : Fin 5 → Hint) :
    (skipFirst hints 0 = Option.none ↔ ∀ j : Fin 5, (hints j).is_none = true) ∧
    (∀ v, skipFirst hints 0 = some v → v < 5) ∧
    (∀ v, ∀ h5 : v < 5, skipFirst hints 0 = some v →
      (hints ⟨v, h5⟩).is_some = true ∧
      ∀ j : Fin 5, j.val < v → (hints j).is_none = true) := by
  obtain ⟨h1, h2⟩ := skipFirst_spec hints
  refine ⟨h1, ?_, ?_⟩
  · intro v hv
    obtain ⟨h5, -, -⟩ := h2 v hv
    exact h5
  · intro v h5 hv
    obtain ⟨h5x, hsome, hbefore⟩ := h2 v hv
    exact ⟨hsome, hbefore⟩

/-- Witness for claim C10's theorem: the skip loop over `hintsSlot2` stops at
index 2 after reading only `none` hints. -/
theorem claim10_witness :
    ((2 : ℕ) < 5) ∧ (hintsSlot2 ⟨2, by omega⟩).is_some = true ∧
      (hintsSlot2 ⟨0, by omega⟩).is_none = true :=
  ⟨(claim10_skip_loop hintsSlot2).2.1 2 (by decide),
    ((claim10_skip_loop hintsSlot2).2.2 2 (by omega) (by decide)).1,
    ((claim10_skip_loop hintsSlot2).2.2 2 (by omega) (by decide)).2 ⟨0, by omega⟩
      (by decide)⟩

/-! ### Environment invariants and the terminal condition -/

theorem is_over_char (env : HanabiEnv) (hc : conservation env) (hs : slotConsistent env) :
    (env.is_over = true ↔ env.black_tokens = 1 ∨ env.fireworks.total = 25 ∨
      (env.deck.total = 0 ∧ env.last_round = true ∧ env.last_round_turns_taken = 2)) := by
  have hnump : numSomeHints env.player_hints = liveHand env.player_hand :=
    Finset.sum_congr rfl fun i _ => by rw [← (hs i).1]
  have hnumo : numSomeHints env.opponent_hints = liveHand env.opponent_hand :=
    Finset.sum_congr rfl fun i _ => by rw [← (hs i).2]
  rw [HanabiEnv.is_over, HanabiEnv.public_info, PublicInfo.is_over]
  simp only [Bool.or_eq_true, Bool.and_eq_true, beq_iff_eq]
  have hsum : env.discard.total + numSomeHints env.player_hints +
      numSomeHints env.opponent_hints + env.fireworks.total = 50 ↔
      env.deck.total = 0 := by
    rw [hnump, hnumo]
    rw [conservation] at hc
    omega
  rw [hsum]
  tauto

/-- Claim C3: with the conservation invariant (and the hand data-model
invariant tying empty slots to `none` hints, which `is_over` relies on to
count live cards), `is_over` holds iff one black token remains, or the
fireworks are complete, or the deck is empty with the final round played out. -/
theorem claim3_is_over (env : HanabiEnv) (hc : conservation env) (hs : slotConsistent env) :
    (env.is_over = true ↔ env.black_tokens = 1 ∨ env.fireworks.total = 25 ∨
      (env.deck.total = 0 ∧ env.last_round = true ∧ env.last_round_turns_taken = 2)) :=
  is_over_char env hc hs

/-- Witness for claim C3's theorem at the concrete environment `envBase`. -/
theorem claim3_witness :
    conservation envBase ∧ slotConsistent envBase ∧
      (envBase.is_over = true ↔ envBase.black_tokens = 1 ∨ envBase.fireworks.total = 25 ∨
        (envBase.deck.total = 0 ∧ envBase.last_round = true ∧
          envBase.last_round_turns_taken = 2)) :=
  ⟨by decide, by decide, claim3_is_over envBase (by decide) (by decide)⟩

/-! ### Structural lemmas for the step function -/

theorem card_is_some_iff (c : Card) : c.is_some = true ↔ c.id ≠ 26 := by
  simp [Card.is_some, Card.is_none]

theorem card_mk_is_some (v : ℕ) (h : v < 25) : (Card.mk v).is_some = true := by
  rw [card_is_some_iff]
  show v ≠ 26
  omega

theorem card_none_is_some : Card.none.is_some = false := rfl

theorem and_pow_self_eq (m k : ℕ) : ((m &&& (1 <<< k)) == (1 <<< k)) = m.testBit k := by
  cases h : m.testBit k
  · apply beq_eq_false_iff_ne.mpr
    intro hc
    have h2 := congrArg (fun x => x.testBit k) hc
    simp only [Nat.testBit_and, Nat.one_shiftLeft, Nat.testBit_two_pow_self,
      Bool.and_true] at h2
    rw [h] at h2
    exact Bool.noConfusion h2
  · simp only [beq_iff_eq]
    apply Nat.eq_of_testBit_eq
    intro i
    rw [Nat.testBit_and, Nat.one_shiftLeft]
    by_cases hik : k = i
    · subst hik
      rw [Nat.testBit_two_pow_self, h]
      rfl
    · rw [Nat.testBit_two_pow_of_ne hik]
      simp

theorem matches_eq_testBit (h : Hint) (c : Card) :
    h.matches c = (h.color.testBit c.color_id && h.suit.testBit c.suit_id) := by
  rw [Hint.matches, and_pow_self_eq, and_pow_self_eq]

theorem testBit_31 (k : ℕ) (hk : k < 5) : (31 : ℕ).testBit k = true := by
  have h31 : (31 : ℕ) = 2 ^ 5 - 1 := by norm_num
  rw [h31, Nat.testBit_two_pow_sub_one]
  simpa using hk

theorem testBit_255 (k : ℕ) (hk : k < 8) : (255 : ℕ).testBit k = true := by
  have h255 : (255 : ℕ) = 2 ^ 8 - 1 := by norm_num
  rw [h255, Nat.testBit_two_pow_sub_one]
  simpa using hk

theorem empty_matches (c : Card) (h : c.id < 25) : Hint.empty.matches c = true := by
  rw [matches_eq_testBit]
  rw [Hint.empty]
  have h1 : c.color_id < 5 := by rw [Card.color_id]; omega
  have h2 : c.suit_id < 5 := by rw [Card.suit_id]; omega
  rw [testBit_31 _ h1, testBit_31 _ h2]
  rfl

theorem set_true_color_matches (h : Hint) (c : Fin 5) (card : Card)
    (hcol : card.color_id = c.val) (hm : h.matches card = true) :
    (h.set_true_color c).matches card = true := by
  rw [matches_eq_testBit] at hm ⊢
  rw [Hint.set_true_color]
  simp only [Bool.and_eq_true] at hm ⊢
  refine ⟨?_, hm.2⟩
  rw [hcol, Nat.one_shiftLeft, Nat.testBit_two_pow_self]

theorem disable_color_matches (h : Hint) (c : Fin 5) (card : Card) (hv : card.id < 25)
    (hcol : card.color_id ≠ c.val) (hm : h.matches card = true) :
    (h.disable_color c).matches card = true := by
  rw [matches_eq_testBit] at hm ⊢
  rw [Hint.disable_color]
  simp only [Bool.and_eq_true] at hm ⊢
  refine ⟨?_, hm.2⟩
  rw [Nat.testBit_and, Nat.testBit_xor, Nat.one_shiftLeft]
  rw [testBit_255 card.color_id (by rw [Card.color_id]; omega)]
  rw [Nat.testBit_two_pow_of_ne (fun hc => hcol hc.symm)]
  rw [hm.1]
  rfl

theorem set_true_suit_matches (h : Hint) (s : Fin 5) (card : Card)
    (hsuit : card.suit_id = s.val) (hm : h.matches card = true) :
    (h.set_true_suit s).matches card = true := by
  rw [matches_eq_testBit] at hm ⊢
  rw [Hint.set_true_suit]
  simp only [Bool.and_eq_true] at hm ⊢
  refine ⟨hm.1, ?_⟩
  rw [hsuit, Nat.one_shiftLeft, Nat.testBit_two_pow_self]

theorem disable_suit_matches (h : Hint) (s : Fin 5) (card : Card) (hv : card.id < 25)
    (hsuit : card.suit_id ≠ s.val) (hm : h.matches card = true) :
    (h.disable_suit s).matches card = true := by
  rw [matches_eq_testBit] at hm ⊢
  rw [Hint.disable_suit]
  simp only [Bool.and_eq_true] at hm ⊢
  refine ⟨hm.1, ?_⟩
  rw [Nat.testBit_and, Nat.testBit_xor, Nat.one_shiftLeft]
  rw [testBit_255 card.suit_id (by rw [Card.suit_id]; omega)]
  rw [Nat.testBit_two_pow_of_ne (fun hc => hsuit hc.symm)]
  rw [hm.2]
  rfl

theorem finish_deck (e : HanabiEnv) : e.finish.deck = e.deck := by
  rw [HanabiEnv.finish]; dsimp only; split <;> rfl

theorem finish_discard (e : HanabiEnv) : e.finish.discard = e.discard := by
  rw [HanabiEnv.finish]; dsimp only; split <;> rfl

theorem finish_blue (e : HanabiEnv) : e.finish.blue_tokens = e.blue_tokens := by
  rw [HanabiEnv.finish]; dsimp only; split <;> rfl

theorem finish_black (e : HanabiEnv) : e.finish.black_tokens = e.black_tokens := by
  rw [HanabiEnv.finish]; dsimp only; split <;> rfl

theorem finish_fireworks (e : HanabiEnv) : e.finish.fireworks = e.fireworks := by
  rw [HanabiEnv.finish]; dsimp only; split <;> rfl

theorem finish_last_round (e : HanabiEnv) : e.finish.last_round = e.last_round := by
  rw [HanabiEnv.finish]; dsimp only; split <;> rfl

theorem finish_player_hand (e : HanabiEnv) : e.finish.player_hand = e.opponent_hand := by
  rw [HanabiEnv.finish]; dsimp only; split <;> rfl

theorem finish_opponent_hand (e : HanabiEnv) : e.finish.opponent_hand = e.player_hand := by
  rw [HanabiEnv.finish]; dsimp only; split <;> rfl

theorem finish_player_hints (e : HanabiEnv) : e.finish.player_hints = e.opponent_hints := by
  rw [HanabiEnv.finish]; dsimp only; split <;> rfl

theorem finish_opponent_hints (e : HanabiEnv) :
    e.finish.opponent_hints = e.player_hints := by
  rw [HanabiEnv.finish]; dsimp only; split <;> rfl

theorem finish_turns (e : HanabiEnv) : e.finish.last_round_turns_taken =
    if e.last_round then e.last_round_turns_taken + 1 else e.last_round_turns_taken := by
  rw [HanabiEnv.finish]; dsimp only; split <;> simp_all

theorem draw_into_deck (e : HanabiEnv) (r : ℕ) (i : Fin 5) :
    (e.draw_into r i).deck = (e.deck.pop r).2 := by
  rw [HanabiEnv.draw_into]; split <;> rfl

theorem draw_into_player_hand (e : HanabiEnv) (r : ℕ) (i : Fin 5) :
    (e.draw_into r i).player_hand = Function.update e.player_hand i (e.deck.pop r).1 := by
  rw [HanabiEnv.draw_into]; split <;> rfl

theorem draw_into_player_hints (e : HanabiEnv) (r : ℕ) (i : Fin 5) :
    (e.draw_into r i).player_hints = Function.update e.player_hints i
      (if (e.deck.pop r).1.is_some then Hint.empty else Hint.none) := by
  rw [HanabiEnv.draw_into]
  split <;> rfl

theorem draw_into_opponent_hand (e : HanabiEnv) (r : ℕ) (i : Fin 5) :
    (e.draw_into r i).opponent_hand = e.opponent_hand := by
  rw [HanabiEnv.draw_into]; split <;> rfl

theorem draw_into_opponent_hints (e : HanabiEnv) (r : ℕ) (i : Fin 5) :
    (e.draw_into r i).opponent_hints = e.opponent_hints := by
  rw [HanabiEnv.draw_into]; split <;> rfl

theorem draw_into_discard (e : HanabiEnv) (r : ℕ) (i : Fin 5) :
    (e.draw_into r i).discard = e.discard := by
  rw [HanabiEnv.draw_into]; split <;> rfl

theorem draw_into_blue (e : HanabiEnv) (r : ℕ) (i : Fin 5) :
    (e.draw_into r i).blue_tokens = e.blue_tokens := by
  rw [HanabiEnv.draw_into]; split <;> rfl

theorem draw_into_black (e : HanabiEnv) (r : ℕ) (i : Fin 5) :
    (e.draw_into r i).black_tokens = e.black_tokens := by
  rw [HanabiEnv.draw_into]; split <;> rfl

theorem draw_into_fireworks (e : HanabiEnv) (r : ℕ) (i : Fin 5) :
    (e.draw_into r i).fireworks = e.fireworks := by
  rw [HanabiEnv.draw_into]; split <;> rfl

theorem draw_into_last_round (e : HanabiEnv) (r : ℕ) (i : Fin 5) :
    (e.draw_into r i).last_round = (e.last_round || !(e.deck.pop r).1.is_some) := by
  rw [HanabiEnv.draw_into]
  split
  · rename_i hs
    rw [hs]
    simp
  · rename_i hs
    simp only [Bool.not_eq_true] at hs
    rw [hs]
    simp

theorem draw_into_turns (e : HanabiEnv) (r : ℕ) (i : Fin 5) :
    (e.draw_into r i).last_round_turns_taken = e.last_round_turns_taken := by
  rw [HanabiEnv.draw_into]; split <;> rfl

theorem liveHand_update (hd : Fin 5 → Card) (i : Fin 5) (c : Card) :
    liveHand (Function.update hd i c) + (if (hd i).is_some = true then 1 else 0)
      = liveHand hd + (if c.is_some = true then 1 else 0) := by
  have hfun : (fun j => if ((Function.update hd i c) j).is_some = true then 1 else 0)
      = Function.update (fun j => if (hd j).is_some = true then 1 else 0) i
          (if c.is_some = true then 1 else 0) := by
    funext j
    by_cases hj : j = i
    · subst hj
      rw [Function.update_same, Function.update_same]
    · rw [Function.update_noteq hj, Function.update_noteq hj]
  rw [liveHand, liveHand]
  calc (∑ j, if ((Function.update hd i c) j).is_some = true then 1 else 0)
        + (if (hd i).is_some = true then 1 else 0)
      = (∑ j, Function.update (fun j => if (hd j).is_some = true then 1 else 0) i
          (if c.is_some = true then 1 else 0) j) +
          (if (hd i).is_some = true then 1 else 0) := by rw [← hfun]
    _ = ((if c.is_some = true then 1 else 0) +
          ∑ j ∈ Finset.univ.erase i, if (hd j).is_some = true then 1 else 0) +
          (if (hd i).is_some = true then 1 else 0) := by
          rw [Finset.sum_update_of_mem (Finset.mem_univ i)]
          rw [Finset.erase_eq]
    _ = (∑ j, if (hd j).is_some = true then 1 else 0) +
          (if c.is_some = true then 1 else 0) := by
          rw [← Finset.add_sum_erase _ _ (Finset.mem_univ i)]
          ring

theorem fireworks_total_add (fw : Fireworks) (ci : Fin 25)
    (hacc : fw.acceptsF ci = true) : (fw.add_cardF ci).total = fw.total + 1 := by
  rw [Fireworks.acceptsF, beq_iff_eq] at hacc
  have hsplit : ∑ i : Fin 5, fw.f i
      = fw.f ⟨ci.val / 5, by omega⟩ +
        ∑ x ∈ Finset.univ \ {(⟨ci.val / 5, by omega⟩ : Fin 5)}, fw.f x := by
    rw [← Finset.add_sum_erase _ _ (Finset.mem_univ _), Finset.erase_eq]
  rw [Fireworks.total, Fireworks.total, Fireworks.add_cardF]
  dsimp only
  rw [Finset.sum_update_of_mem (Finset.mem_univ _), hsplit]
  omega

theorem pop_pos_spec (col : CardCollection) (r : ℕ) (hwf : col.wf) (hpos : 0 < col.total) :
    (col.pop r).2.wf ∧ (col.pop r).2.total + 1 = col.total ∧
      (col.pop r).1.is_some = true ∧ (col.pop r).1.id < 25 := by
  obtain ⟨j, hj, hpop⟩ := pop_of_total_pos col r hwf hpos
  rw [hpop]
  refine ⟨removeF_wf col j hwf hj, ?_, card_mk_is_some j.val j.isLt, j.isLt⟩
  rw [CardCollection.removeF]
  dsimp only
  omega

theorem pop_fst_valid (col : CardCollection) (r : ℕ)
    (h : (col.pop r).1.is_some = true) : (col.pop r).1.id < 25 := by
  by_cases hpos : 0 < col.total
  · rw [CardCollection.pop, if_pos hpos] at h ⊢
    rcases hfc : findCard col.counts (r % col.total) 0 0 with _ | j
    · rw [hfc] at h
      have hfalse : (false : Bool) = true := h
      exact Bool.noConfusion hfalse
    · show j.val < 25
      exact j.isLt
  · rw [CardCollection.pop, if_neg hpos] at h
    have hfalse : (false : Bool) = true := h
    exact Bool.noConfusion hfalse

/-! ### Conservation is preserved by every step -/

theorem finish_consDeck (e : HanabiEnv) (hc : conservation e) (hw : e.deck.wf) :
    conservation e.finish ∧ e.finish.deck.wf := by
  constructor
  · rw [conservation] at hc ⊢
    rw [finish_discard, finish_deck, finish_player_hand, finish_opponent_hand,
      finish_fireworks]
    omega
  · rw [finish_deck]
    exact hw

theorem applyColorHint_consDeck (env : HanabiEnv) (c : Fin 5) (hc : conservation env)
    (hw : env.deck.wf) :
    conservation (env.applyColorHint c) ∧ (env.applyColorHint c).deck.wf := ⟨hc, hw⟩

theorem applySuitHint_consDeck (env : HanabiEnv) (s : Fin 5) (hc : conservation env)
    (hw : env.deck.wf) :
    conservation (env.applySuitHint s) ∧ (env.applySuitHint s).deck.wf := ⟨hc, hw⟩

theorem draw_into_consDeck (e : HanabiEnv) (r2 : ℕ) (i : Fin 5)
    (hw : e.deck.wf)
    (hsum : e.discard.total + e.deck.total + liveHand e.player_hand +
      liveHand e.opponent_hand + e.fireworks.total
      = 50 + (if (e.player_hand i).is_some = true then 1 else 0)) :
    conservation (e.draw_into r2 i) ∧ (e.draw_into r2 i).deck.wf := by
  have hupd := liveHand_update e.player_hand i (e.deck.pop r2).1
  constructor
  · rw [conservation, draw_into_discard, draw_into_deck, draw_into_player_hand,
      draw_into_opponent_hand, draw_into_fireworks]
    rcases Nat.eq_zero_or_pos e.deck.total with h0 | hpos
    · rw [pop_of_total_zero e.deck r2 h0] at hupd ⊢
      simp only [card_none_is_some, Bool.false_eq_true, if_false] at hupd ⊢
      omega
    · obtain ⟨hw2, htot, hsome2, hid2⟩ := pop_pos_spec e.deck r2 hw hpos
      simp only [hsome2, if_true] at hupd
      omega
  · rw [draw_into_deck]
    rcases Nat.eq_zero_or_pos e.deck.total with h0 | hpos
    · rw [pop_of_total_zero e.deck r2 h0]
      exact hw
    · exact (pop_pos_spec e.deck r2 hw hpos).1

theorem playAt_consDeck (env : HanabiEnv) (i : Fin 5) (r2 : ℕ) (env2 : HanabiEnv)
    (hstep : env.playAt i r2 = some env2) (hc : conservation env) (hw : env.deck.wf) :
    conservation env2 ∧ env2.deck.wf := by
  rw [HanabiEnv.playAt] at hstep
  split at hstep
  case isTrue hid =>
    have hslot : (env.player_hand i).is_some = true := by
      rw [card_is_some_iff]; omega
    dsimp only at hstep
    split at hstep
    case isTrue hacc =>
      injection hstep with hE
      subst hE
      refine draw_into_consDeck _ r2 i hw ?_
      show env.discard.total + env.deck.total + liveHand env.player_hand +
        liveHand env.opponent_hand +
        (env.fireworks.add_cardF ⟨(env.player_hand i).id, hid⟩).total
        = 50 + (if (env.player_hand i).is_some = true then 1 else 0)
      rw [fireworks_total_add _ _ hacc, if_pos hslot]
      rw [conservation] at hc
      omega
    case isFalse hacc =>
      injection hstep with hE
      subst hE
      refine draw_into_consDeck _ r2 i hw ?_
      have hupd := liveHand_update env.player_hand i Card.none
      rw [if_pos hslot, card_none_is_some] at hupd
      simp only [Bool.false_eq_true, if_false] at hupd
      show (env.discard.addF ⟨(env.player_hand i).id, hid⟩).total + env.deck.total +
        liveHand (Function.update env.player_hand i Card.none) +
        liveHand env.opponent_hand + env.fireworks.total
        = 50 + (if (Function.update env.player_hand i Card.none i).is_some = true
            then 1 else 0)
      rw [Function.update_same, card_none_is_some]
      simp only [Bool.false_eq_true, if_false]
      have haddF : (env.discard.addF ⟨(env.player_hand i).id, hid⟩).total
          = env.discard.total + 1 := rfl
      rw [haddF]
      rw [conservation] at hc
      omega
  case isFalse hid =>
    exact Option.noConfusion hstep

theorem discardAt2_consDeck (env : HanabiEnv) (i : Fin 5) (r2 : ℕ) (env2 : HanabiEnv)
    (hstep : env.discardAt2 i r2 = some env2) (hc : conservation env)
    (hw : env.deck.wf) : conservation env2 ∧ env2.deck.wf := by
  rw [HanabiEnv.discardAt2] at hstep
  split at hstep
  case isTrue hid =>
    have hslot : (env.player_hand i).is_some = true := by
      rw [card_is_some_iff]; omega
    injection hstep with hE
    subst hE
    have hbase := draw_into_consDeck
      ({ env.discard_at i ⟨(env.player_hand i).id, hid⟩ with
          black_tokens := (env.discard_at i ⟨(env.player_hand i).id, hid⟩).black_tokens }
        : HanabiEnv) r2 i hw ?_
    · constructor
      · have := hbase.1
        rw [conservation] at this ⊢
        exact this
      · exact hbase.2
    · have hupd := liveHand_update env.player_hand i Card.none
      rw [if_pos hslot, card_none_is_some] at hupd
      simp only [Bool.false_eq_true, if_false] at hupd
      show (env.discard.addF ⟨(env.player_hand i).id, hid⟩).total + env.deck.total +
        liveHand (Function.update env.player_hand i Card.none) +
        liveHand env.opponent_hand + env.fireworks.total
        = 50 + (if (Function.update env.player_hand i Card.none i).is_some = true
            then 1 else 0)
      rw [Function.update_same, card_none_is_some]
      simp only [Bool.false_eq_true, if_false]
      have haddF : (env.discard.addF ⟨(env.player_hand i).id, hid⟩).total
          = env.discard.total + 1 := rfl
      rw [haddF]
      rw [conservation] at hc
      omega
  case isFalse hid =>
    exact Option.noConfusion hstep

theorem step_preserves_consDeck (env : HanabiEnv) (a : Action) (r1 r2 : ℕ)
    (env2 : HanabiEnv) (hstep : env.step a r1 r2 = some env2)
    (hc : conservation env) (hw : env.deck.wf) :
    conservation env2 ∧ env2.deck.wf := by
  match a with
  | Action.ColorHint c =>
    rw [HanabiEnv.step] at hstep
    split at hstep
    · injection hstep with hE
      subst hE
      obtain ⟨h1, h2⟩ := applyColorHint_consDeck env c hc hw
      exact finish_consDeck _ h1 h2
    · exact Option.noConfusion hstep
  | Action.SuitHint s =>
    rw [HanabiEnv.step] at hstep
    split at hstep
    · injection hstep with hE
      subst hE
      obtain ⟨h1, h2⟩ := applySuitHint_consDeck env s hc hw
      exact finish_consDeck _ h1 h2
    · exact Option.noConfusion hstep
  | Action.Play h =>
    rw [HanabiEnv.step] at hstep
    split at hstep
    · exact Option.noConfusion hstep
    · rw [Option.map_eq_some'] at hstep
      obtain ⟨e2, hplay, hfin⟩ := hstep
      subst hfin
      obtain ⟨h1, h2⟩ := playAt_consDeck env _ r2 e2 hplay hc hw
      exact finish_consDeck _ h1 h2
  | Action.Discard h =>
    rw [HanabiEnv.step] at hstep
    split at hstep
    · exact Option.noConfusion hstep
    · rw [Option.map_eq_some'] at hstep
      obtain ⟨e2, hdis, hfin⟩ := hstep
      subst hfin
      obtain ⟨h1, h2⟩ := discardAt2_consDeck env _ r2 e2 hdis hc hw
      exact finish_consDeck _ h1 h2

/-! ### Hint soundness is preserved by every step -/

theorem finish_sound (e : HanabiEnv) (hs : hintSound e) : hintSound e.finish := by
  intro i
  rw [finish_player_hand, finish_player_hints, finish_opponent_hand,
    finish_opponent_hints]
  exact ⟨(hs i).2, (hs i).1⟩

theorem applyColorHint_sound (env : HanabiEnv) (c : Fin 5)
    (hvalid : handValid env.opponent_hand) (hs : hintSound env) :
    hintSound (env.applyColorHint c) := by
  intro i
  constructor
  · exact (hs i).1
  · intro hsome
    show ((if (env.opponent_hand i).is_some then
        (if (env.opponent_hand i).color_id = c.val then
          (env.opponent_hints i).set_true_color c
        else (env.opponent_hints i).disable_color c)
      else env.opponent_hints i).matches (env.opponent_hand i)) = true
    have hsome2 : (env.opponent_hand i).is_some = true := hsome
    rw [if_pos hsome2]
    by_cases hcol : (env.opponent_hand i).color_id = c.val
    · rw [if_pos hcol]
      exact set_true_color_matches _ c _ hcol ((hs i).2 hsome2)
    · rw [if_neg hcol]
      exact disable_color_matches _ c _ (hvalid i hsome2) hcol ((hs i).2 hsome2)

theorem applySuitHint_sound (env : HanabiEnv) (s : Fin 5)
    (hvalid : handValid env.opponent_hand) (hs : hintSound env) :
    hintSound (env.applySuitHint s) := by
  intro i
  constructor
  · exact (hs i).1
  · intro hsome
    show ((if (env.opponent_hand i).is_some then
        (if (env.opponent_hand i).suit_id = s.val then
          (env.opponent_hints i).set_true_suit s
        else (env.opponent_hints i).disable_suit s)
      else env.opponent_hints i).matches (env.opponent_hand i)) = true
    have hsome2 : (env.opponent_hand i).is_some = true := hsome
    rw [if_pos hsome2]
    by_cases hsuit : (env.opponent_hand i).suit_id = s.val
    · rw [if_pos hsuit]
      exact set_true_suit_matches _ s _ hsuit ((hs i).2 hsome2)
    · rw [if_neg hsuit]
      exact disable_suit_matches _ s _ (hvalid i hsome2) hsuit ((hs i).2 hsome2)

theorem draw_into_sound (e : HanabiEnv) (r2 : ℕ) (i : Fin 5) (hs : hintSound e) :
    hintSound (e.draw_into r2 i) := by
  intro j
  rw [draw_into_opponent_hand, draw_into_opponent_hints]
  refine ⟨?_, (hs j).2⟩
  rw [draw_into_player_hand, draw_into_player_hints]
  by_cases hji : j = i
  · subst hji
    rw [Function.update_same, Function.update_same]
    intro hsome
    rw [if_pos hsome]
    exact empty_matches _ (pop_fst_valid e.deck r2 hsome)
  · rw [Function.update_noteq hji, Function.update_noteq hji]
    exact (hs j).1

theorem discard_at_sound (e : HanabiEnv) (i : Fin 5) (ci : Fin 25)
    (hs : hintSound e) : hintSound (e.discard_at i ci) := by
  intro j
  constructor
  · show (Function.update e.player_hand i Card.none j).is_some = true →
      (Function.update e.player_hints i Hint.none j).matches
        (Function.update e.player_hand i Card.none j) = true
    by_cases hji : j = i
    · subst hji
      rw [Function.update_same, card_none_is_some]
      intro hfalse
      exact Bool.noConfusion hfalse
    · rw [Function.update_noteq hji, Function.update_noteq hji]
      exact (hs j).1
  · exact (hs j).2

theorem playAt_sound (env : HanabiEnv) (i : Fin 5) (r2 : ℕ) (env2 : HanabiEnv)
    (hstep : env.playAt i r2 = some env2) (hs : hintSound env) : hintSound env2 := by
  rw [HanabiEnv.playAt] at hstep
  split at hstep
  case isTrue hid =>
    dsimp only at hstep
    split at hstep
    case isTrue hacc =>
      injection hstep with hE
      subst hE
      apply draw_into_sound
      intro j
      exact hs j
    case isFalse hacc =>
      injection hstep with hE
      subst hE
      apply draw_into_sound
      intro j
      exact discard_at_sound env i ⟨(env.player_hand i).id, hid⟩ hs j
  case isFalse hid =>
    exact Option.noConfusion hstep

theorem discardAt2_sound (env : HanabiEnv) (i : Fin 5) (r2 : ℕ) (env2 : HanabiEnv)
    (hstep : env.discardAt2 i r2 = some env2) (hs : hintSound env) : hintSound env2 := by
  rw [HanabiEnv.discardAt2] at hstep
  split at hstep
  case isTrue hid =>
    injection hstep with hE
    subst hE
    intro j
    exact draw_into_sound (env.discard_at i ⟨(env.player_hand i).id, hid⟩) r2 i
      (discard_at_sound env i ⟨(env.player_hand i).id, hid⟩ hs) j
  case isFalse hid =>
    exact Option.noConfusion hstep

theorem step_preserves_sound (env : HanabiEnv) (a : Action) (r1 r2 : ℕ)
    (env2 : HanabiEnv) (hstep : env.step a r1 r2 = some env2) (hs : hintSound env) :
    hintSound env2 := by
  match a with
  | Action.ColorHint c =>
    rw [HanabiEnv.step] at hstep
    split at hstep
    case isTrue hvalid =>
      injection hstep with hE
      subst hE
      exact finish_sound _ (applyColorHint_sound env c hvalid hs)
    case isFalse hvalid =>
      exact Option.noConfusion hstep
  | Action.SuitHint s =>
    rw [HanabiEnv.step] at hstep
    split at hstep
    case isTrue hvalid =>
      injection hstep with hE
      subst hE
      exact finish_sound _ (applySuitHint_sound env s hvalid hs)
    case isFalse hvalid =>
      exact Option.noConfusion hstep
  | Action.Play h =>
    rw [HanabiEnv.step] at hstep
    split at hstep
    · exact Option.noConfusion hstep
    · rw [Option.map_eq_some'] at hstep
      obtain ⟨e2, hplay, hfin⟩ := hstep
      subst hfin
      exact finish_sound _ (playAt_sound env _ r2 e2 hplay hs)
  | Action.Discard h =>
    rw [HanabiEnv.step] at hstep
    split at hstep
    · exact Option.noConfusion hstep
    · rw [Option.map_eq_some'] at hstep
      obtain ⟨e2, hdis, hfin⟩ := hstep
      subst hfin
      exact finish_sound _ (discardAt2_sound env _ r2 e2 hdis hs)

/-! ### The random deal and reachability -/

theorem liveHand_of_all_some (c1 c2 c3 c4 c5 : Card) (h1 : c1.is_some = true)
    (h2 : c2.is_some = true) (h3 : c3.is_some = true) (h4 : c4.is_some = true)
    (h5 : c5.is_some = true) : liveHand ![c1, c2, c3, c4, c5] = 5 := by
  rw [liveHand, Fin.sum_univ_five]
  have e0 : (![c1, c2, c3, c4, c5] : Fin 5 → Card) 0 = c1 := rfl
  have e1 : (![c1, c2, c3, c4, c5] : Fin 5 → Card) 1 = c2 := rfl
  have e2 : (![c1, c2, c3, c4, c5] : Fin 5 → Card) 2 = c3 := rfl
  have e3 : (![c1, c2, c3, c4, c5] : Fin 5 → Card) 3 = c4 := rfl
  have e4 : (![c1, c2, c3, c4, c5] : Fin 5 → Card) 4 = c5 := rfl
  rw [e0, e1, e2, e3, e4, if_pos h1, if_pos h2, if_pos h3, if_pos h4, if_pos h5]

theorem rd_spec (f : ℕ → ℕ) :
    ((rd1 f).1.is_some = true ∧ (rd2 f).1.is_some = true ∧ (rd3 f).1.is_some = true ∧
      (rd4 f).1.is_some = true ∧ (rd5 f).1.is_some = true ∧ (rd6 f).1.is_some = true ∧
      (rd7 f).1.is_some = true ∧ (rd8 f).1.is_some = true ∧ (rd9 f).1.is_some = true ∧
      (rd10 f).1.is_some = true) ∧
    ((rd10 f).2.wf ∧ (rd10 f).2.total = 40) := by
  have h0w : CardCollection.starting_deck.wf := by decide
  have h0t : CardCollection.starting_deck.total = 50 := rfl
  obtain ⟨w1, t1, s1, v1⟩ := pop_pos_spec CardCollection.starting_deck (f 0) h0w (by omega)
  rw [← rd1] at w1 t1 s1
  obtain ⟨w2, t2, s2, v2⟩ := pop_pos_spec (rd1 f).2 (f 1) w1 (by omega)
  rw [← rd2] at w2 t2 s2
  obtain ⟨w3, t3, s3, v3⟩ := pop_pos_spec (rd2 f).2 (f 2) w2 (by omega)
  rw [← rd3] at w3 t3 s3
  obtain ⟨w4, t4, s4, v4⟩ := pop_pos_spec (rd3 f).2 (f 3) w3 (by omega)
  rw [← rd4] at w4 t4 s4
  obtain ⟨w5, t5, s5, v5⟩ := pop_pos_spec (rd4 f).2 (f 4) w4 (by omega)
  rw [← rd5] at w5 t5 s5
  obtain ⟨w6, t6, s6, v6⟩ := pop_pos_spec (rd5 f).2 (f 5) w5 (by omega)
  rw [← rd6] at w6 t6 s6
  obtain ⟨w7, t7, s7, v7⟩ := pop_pos_spec (rd6 f).2 (f 6) w6 (by omega)
  rw [← rd7] at w7 t7 s7
  obtain ⟨w8, t8, s8, v8⟩ := pop_pos_spec (rd7 f).2 (f 7) w7 (by omega)
  rw [← rd8] at w8 t8 s8
  obtain ⟨w9, t9, s9, v9⟩ := pop_pos_spec (rd8 f).2 (f 8) w8 (by omega)
  rw [← rd9] at w9 t9 s9
  obtain ⟨w10, t10, s10, v10⟩ := pop_pos_spec (rd9 f).2 (f 9) w9 (by omega)
  rw [← rd10] at w10 t10 s10
  exact ⟨⟨s1, s2, s3, s4, s5, s6, s7, s8, s9, s10⟩, w10, by omega⟩

theorem random_consDeck (f : ℕ → ℕ) :
    conservation (HanabiEnv.random f) ∧ (HanabiEnv.random f).deck.wf := by
  obtain ⟨⟨s1, s2, s3, s4, s5, s6, s7, s8, s9, s10⟩, w10, t10⟩ := rd_spec f
  have hph : (HanabiEnv.random f).player_hand
      = ![(rd1 f).1, (rd2 f).1, (rd3 f).1, (rd4 f).1, (rd5 f).1] := rfl
  have hoh : (HanabiEnv.random f).opponent_hand
      = ![(rd6 f).1, (rd7 f).1, (rd8 f).1, (rd9 f).1, (rd10 f).1] := rfl
  have hdk : (HanabiEnv.random f).deck = (rd10 f).2 := rfl
  have hds : (HanabiEnv.random f).discard = CardCollection.empty := rfl
  have hfwk : (HanabiEnv.random f).fireworks = Fireworks.empty := rfl
  constructor
  · rw [conservation, hph, hoh, hdk, hds, hfwk,
      liveHand_of_all_some _ _ _ _ _ s1 s2 s3 s4 s5,
      liveHand_of_all_some _ _ _ _ _ s6 s7 s8 s9 s10, t10]
    decide
  · rw [CardCollection.wf, hdk]
    exact w10

theorem random_sound (f : ℕ → ℕ) : hintSound (HanabiEnv.random f) := by
  have h0w : CardCollection.starting_deck.wf := by decide
  have h0t : CardCollection.starting_deck.total = 50 := rfl
  obtain ⟨w1, t1, s1, v1⟩ := pop_pos_spec CardCollection.starting_deck (f 0) h0w (by omega)
  rw [← rd1] at w1 t1 s1 v1
  obtain ⟨w2, t2, s2, v2⟩ := pop_pos_spec (rd1 f).2 (f 1) w1 (by omega)
  rw [← rd2] at w2 t2 s2 v2
  obtain ⟨w3, t3, s3, v3⟩ := pop_pos_spec (rd2 f).2 (f 2) w2 (by omega)
  rw [← rd3] at w3 t3 s3 v3
  obtain ⟨w4, t4, s4, v4⟩ := pop_pos_spec (rd3 f).2 (f 3) w3 (by omega)
  rw [← rd4] at w4 t4 s4 v4
  obtain ⟨w5, t5, s5, v5⟩ := pop_pos_spec (rd4 f).2 (f 4) w4 (by omega)
  rw [← rd5] at w5 t5 s5 v5
  obtain ⟨w6, t6, s6, v6⟩ := pop_pos_spec (rd5 f).2 (f 5) w5 (by omega)
  rw [← rd6] at w6 t6 s6 v6
  obtain ⟨w7, t7, s7, v7⟩ := pop_pos_spec (rd6 f).2 (f 6) w6 (by omega)
  rw [← rd7] at w7 t7 s7 v7
  obtain ⟨w8, t8, s8, v8⟩ := pop_pos_spec (rd7 f).2 (f 7) w7 (by omega)
  rw [← rd8] at w8 t8 s8 v8
  obtain ⟨w9, t9, s9, v9⟩ := pop_pos_spec (rd8 f).2 (f 8) w8 (by omega)
  rw [← rd9] at w9 t9 s9 v9
  obtain ⟨w10, t10, s10, v10⟩ := pop_pos_spec (rd9 f).2 (f 9) w9 (by omega)
  rw [← rd10] at w10 t10 s10 v10
  have hph : (HanabiEnv.random f).player_hand
      = ![(rd1 f).1, (rd2 f).1, (rd3 f).1, (rd4 f).1, (rd5 f).1] := rfl
  have hoh : (HanabiEnv.random f).opponent_hand
      = ![(rd6 f).1, (rd7 f).1, (rd8 f).1, (rd9 f).1, (rd10 f).1] := rfl
  have hphi : (HanabiEnv.random f).player_hints = fun _ => Hint.empty := rfl
  have hohi : (HanabiEnv.random f).opponent_hints = fun _ => Hint.empty := rfl
  intro i
  constructor
  · intro hsome
    rw [hph, hphi]
    fin_cases i
    · exact empty_matches _ v1
    · exact empty_matches _ v2
    · exact empty_matches _ v3
    · exact empty_matches _ v4
    · exact empty_matches _ v5
  · intro hsome
    rw [hoh, hohi]
    fin_cases i
    · exact empty_matches _ v6
    · exact empty_matches _ v7
    · exact empty_matches _ v8
    · exact empty_matches _ v9
    · exact empty_matches _ v10

theorem reachable_inv (env : HanabiEnv) (h : Reachable env) :
    conservation env ∧ env.deck.wf ∧ hintSound env := by
  induction h with
  | base f => exact ⟨(random_consDeck f).1, (random_consDeck f).2, random_sound f⟩
  | step env env' a r1 r2 hr hmem hstep ih =>
    obtain ⟨hc, hw, hs⟩ := ih
    obtain ⟨hc2, hw2⟩ := step_preserves_consDeck env a r1 r2 env' hstep hc hw
    exact ⟨hc2, hw2, step_preserves_sound env a r1 r2 env' hstep hs⟩

/-- Claim C4: every environment reachable from a fresh deal by legal steps
keeps all 50 cards accounted for among discard, deck, live hand slots and the
fireworks; in particular a legal step from a reachable environment preserves
the sum. -/
theorem claim4_conservation (env : HanabiEnv) (hr : Reachable env) :
    conservation env ∧
      ∀ a r1 r2 env', a ∈ env.actions → env.step a r1 r2 = some env' →
        conservation env' := by
  refine ⟨(reachable_inv env hr).1, ?_⟩
  intro a r1 r2 env' hmem hstep
  exact (reachable_inv env' (Reachable.step env env' a r1 r2 hr hmem hstep)).1

/-- Witness for claim C4's theorem at a concrete fresh deal. -/
theorem claim4_witness : conservation (HanabiEnv.random (fun _ => 0)) :=
  (claim4_conservation _ (Reachable.base _)).1

/-- Claim C5: in every reachable environment, each live slot's hint matches
the card it holds, in both hands; a legal step preserves this. -/
theorem claim5_hint_soundness (env : HanabiEnv) (hr : Reachable env) :
    hintSound env ∧
      ∀ a r1 r2 env', a ∈ env.actions → env.step a r1 r2 = some env' →
        hintSound env' := by
  refine ⟨(reachable_inv env hr).2.2, ?_⟩
  intro a r1 r2 env' hmem hstep
  exact (reachable_inv env' (Reachable.step env env' a r1 r2 hr hmem hstep)).2.2

/-- Witness for claim C5's theorem at a concrete fresh deal. -/
theorem claim5_witness : hintSound (HanabiEnv.random (fun _ => 1)) :=
  (claim5_hint_soundness _ (Reachable.base _)).1

/-! ### Slot consistency and the final round -/

theorem hint_is_some_of_lt (h : Hint) (hc : h.color < 32) (hsu : h.suit < 32) :
    h.is_some = true := by
  rw [Hint.is_some, Hint.is_none]
  have h1 : (h.color == 32) = false := beq_eq_false_iff_ne.mpr (by omega)
  have h2 : (h.suit == 32) = false := beq_eq_false_iff_ne.mpr (by omega)
  rw [h1, h2]
  rfl

theorem finish_consistent (e : HanabiEnv) (hcons : slotConsistent e) :
    slotConsistent e.finish := by
  intro i
  rw [finish_player_hand, finish_player_hints, finish_opponent_hand,
    finish_opponent_hints]
  exact ⟨(hcons i).2, (hcons i).1⟩

theorem applyColorHint_consistent (env : HanabiEnv) (c : Fin 5)
    (hcons : slotConsistent env) (hv : hintsValid env) :
    slotConsistent (env.applyColorHint c) := by
  intro i
  refine ⟨(hcons i).1, ?_⟩
  show (env.opponent_hand i).is_some
    = (if (env.opponent_hand i).is_some then
        (if (env.opponent_hand i).color_id = c.val then
          (env.opponent_hints i).set_true_color c
        else (env.opponent_hints i).disable_color c)
      else env.opponent_hints i).is_some
  by_cases hsome : (env.opponent_hand i).is_some = true
  · obtain ⟨hc32, hs32⟩ := (hv i).2 hsome
    rw [hsome, if_pos rfl]
    by_cases hcol : (env.opponent_hand i).color_id = c.val
    · rw [if_pos hcol]
      refine (hint_is_some_of_lt ((env.opponent_hints i).set_true_color c) ?_ ?_).symm
      · show (1 <<< c.val) < 32
        rw [Nat.one_shiftLeft]
        calc 2 ^ c.val < 2 ^ 5 := Nat.pow_lt_pow_right (by omega) c.isLt
          _ = 32 := rfl
      · show (env.opponent_hints i).suit < 32
        exact hs32
    · rw [if_neg hcol]
      refine (hint_is_some_of_lt ((env.opponent_hints i).disable_color c) ?_ ?_).symm
      · show (env.opponent_hints i).color &&& (255 ^^^ (1 <<< c.val)) < 32
        calc (env.opponent_hints i).color &&& (255 ^^^ (1 <<< c.val))
            ≤ (env.opponent_hints i).color := Nat.and_le_left
          _ < 32 := hc32
      · show (env.opponent_hints i).suit < 32
        exact hs32
  · have hf : (env.opponent_hand i).is_some = false := by
      cases hb : (env.opponent_hand i).is_some
      · rfl
      · exact absurd hb hsome
    rw [if_neg hsome]
    exact (hcons i).2

theorem applySuitHint_consistent (env : HanabiEnv) (s : Fin 5)
    (hcons : slotConsistent env) (hv : hintsValid env) :
    slotConsistent (env.applySuitHint s) := by
  intro i
  refine ⟨(hcons i).1, ?_⟩
  show (env.opponent_hand i).is_some
    = (if (env.opponent_hand i).is_some then
        (if (env.opponent_hand i).suit_id = s.val then
          (env.opponent_hints i).set_true_suit s
        else (env.opponent_hints i).disable_suit s)
      else env.opponent_hints i).is_some
  by_cases hsome : (env.opponent_hand i).is_some = true
  · obtain ⟨hc32, hs32⟩ := (hv i).2 hsome
    rw [hsome, if_pos rfl]
    by_cases hsuit : (env.opponent_hand i).suit_id = s.val
    · rw [if_pos hsuit]
      refine (hint_is_some_of_lt ((env.opponent_hints i).set_true_suit s) ?_ ?_).symm
      · show (env.opponent_hints i).color < 32
        exact hc32
      · show (1 <<< s.val) < 32
        rw [Nat.one_shiftLeft]
        calc 2 ^ s.val < 2 ^ 5 := Nat.pow_lt_pow_right (by omega) s.isLt
          _ = 32 := rfl
    · rw [if_neg hsuit]
      refine (hint_is_some_of_lt ((env.opponent_hints i).disable_suit s) ?_ ?_).symm
      · show (env.opponent_hints i).color < 32
        exact hc32
      · show (env.opponent_hints i).suit &&& (255 ^^^ (1 <<< s.val)) < 32
        calc (env.opponent_hints i).suit &&& (255 ^^^ (1 <<< s.val))
            ≤ (env.opponent_hints i).suit := Nat.and_le_left
          _ < 32 := hs32
  · rw [if_neg hsome]
    exact (hcons i).2

theorem draw_into_consistent (e : HanabiEnv) (r2 : ℕ) (i : Fin 5)
    (hcons : slotConsistent e) : slotConsistent (e.draw_into r2 i) := by
  intro j
  rw [draw_into_opponent_hand, draw_into_opponent_hints]
  refine ⟨?_, (hcons j).2⟩
  rw [draw_into_player_hand, draw_into_player_hints]
  by_cases hji : j = i
  · subst hji
    rw [Function.update_same, Function.update_same]
    by_cases hpd : (e.deck.pop r2).1.is_some = true
    · rw [if_pos hpd, hpd]
      rfl
    · have hf : (e.deck.pop r2).1.is_some = false := by
        cases hb : (e.deck.pop r2).1.is_some
        · rfl
        · exact absurd hb hpd
      rw [if_neg hpd, hf]
      rfl
  · rw [Function.update_noteq hji, Function.update_noteq hji]
    exact (hcons j).1

theorem discard_at_consistent (e : HanabiEnv) (i : Fin 5) (ci : Fin 25)
    (hcons : slotConsistent e) : slotConsistent (e.discard_at i ci) := by
  intro j
  refine ⟨?_, (hcons j).2⟩
  show (Function.update e.player_hand i Card.none j).is_some
    = (Function.update e.player_hints i Hint.none j).is_some
  by_cases hji : j = i
  · subst hji
    rw [Function.update_same, Function.update_same]
    rfl
  · rw [Function.update_noteq hji, Function.update_noteq hji]
    exact (hcons j).1

theorem step_preserves_consistent (env : HanabiEnv) (a : Action) (r1 r2 : ℕ)
    (env2 : HanabiEnv) (hstep : env.step a r1 r2 = some env2)
    (hcons : slotConsistent env) (hv : hintsValid env) : slotConsistent env2 := by
  match a with
  | Action.ColorHint c =>
    rw [HanabiEnv.step] at hstep
    split at hstep
    case isTrue hvalid =>
      injection hstep with hE
      subst hE
      exact finish_consistent _ (applyColorHint_consistent env c hcons hv)
    case isFalse hvalid =>
      exact Option.noConfusion hstep
  | Action.SuitHint s =>
    rw [HanabiEnv.step] at hstep
    split at hstep
    case isTrue hvalid =>
      injection hstep with hE
      subst hE
      exact finish_consistent _ (applySuitHint_consistent env s hcons hv)
    case isFalse hvalid =>
      exact Option.noConfusion hstep
  | Action.Play h =>
    rw [HanabiEnv.step] at hstep
    split at hstep
    · exact Option.noConfusion hstep
    · rw [Option.map_eq_some'] at hstep
      obtain ⟨e2, hplay, hfin⟩ := hstep
      subst hfin
      refine finish_consistent _ ?_
      rw [HanabiEnv.playAt] at hplay
      split at hplay
      case isTrue hid =>
        dsimp only at hplay
        split at hplay
        case isTrue hacc =>
          injection hplay with hE
          subst hE
          exact draw_into_consistent _ r2 _ (fun j => hcons j)
        case isFalse hacc =>
          injection hplay with hE
          subst hE
          apply draw_into_consistent
          intro j
          exact discard_at_consistent env _ ⟨(env.player_hand _).id, hid⟩ hcons j
      case isFalse hid =>
        exact Option.noConfusion hplay
  | Action.Discard h =>
    rw [HanabiEnv.step] at hstep
    split at hstep
    · exact Option.noConfusion hstep
    · rw [Option.map_eq_some'] at hstep
      obtain ⟨e2, hdis, hfin⟩ := hstep
      subst hfin
      refine finish_consistent _ ?_
      rw [HanabiEnv.discardAt2] at hdis
      split at hdis
      case isTrue hid =>
        injection hdis with hE
        subst hE
        intro j
        exact draw_into_consistent (env.discard_at _ ⟨(env.player_hand _).id, hid⟩) r2 _
          (discard_at_consistent env _ ⟨(env.player_hand _).id, hid⟩ hcons) j
      case isFalse hid =>
        exact Option.noConfusion hdis

theorem discardAt2_deck (env : HanabiEnv) (i : Fin 5) (r2 : ℕ) (e2 : HanabiEnv)
    (hdis : env.discardAt2 i r2 = some e2) : e2.deck = (env.deck.pop r2).2 := by
  rw [HanabiEnv.discardAt2] at hdis
  split at hdis
  case isTrue hid =>
    injection hdis with hE
    subst hE
    show ((env.discard_at i ⟨(env.player_hand i).id, hid⟩).draw_into r2 i).deck
      = (env.deck.pop r2).2
    rw [draw_into_deck]
    rfl
  case isFalse hid =>
    exact Option.noConfusion hdis

theorem step_deck_stays_empty (env : HanabiEnv) (a : Action) (r1 r2 : ℕ)
    (env2 : HanabiEnv) (hstep : env.step a r1 r2 = some env2)
    (h0 : env.deck.total = 0) : env2.deck.total = 0 := by
  match a with
  | Action.ColorHint c =>
    rw [HanabiEnv.step] at hstep
    split at hstep
    · injection hstep with hE
      subst hE
      rw [finish_deck]
      exact h0
    · exact Option.noConfusion hstep
  | Action.SuitHint s =>
    rw [HanabiEnv.step] at hstep
    split at hstep
    · injection hstep with hE
      subst hE
      rw [finish_deck]
      exact h0
    · exact Option.noConfusion hstep
  | Action.Play h =>
    rw [HanabiEnv.step] at hstep
    split at hstep
    · exact Option.noConfusion hstep
    · rw [Option.map_eq_some'] at hstep
      obtain ⟨e2, hplay, hfin⟩ := hstep
      subst hfin
      rw [finish_deck]
      rw [HanabiEnv.playAt] at hplay
      split at hplay
      case isTrue hid =>
        dsimp only at hplay
        split at hplay <;>
          · injection hplay with hE
            subst hE
            rw [draw_into_deck]
            show ((env.deck.pop r2).2).total = 0
            rw [pop_of_total_zero env.deck r2 h0]
            exact h0
      case isFalse hid =>
        exact Option.noConfusion hplay
  | Action.Discard h =>
    rw [HanabiEnv.step] at hstep
    split at hstep
    · exact Option.noConfusion hstep
    · rw [Option.map_eq_some'] at hstep
      obtain ⟨e2, hdis, hfin⟩ := hstep
      subst hfin
      rw [finish_deck, discardAt2_deck env _ r2 e2 hdis]
      rw [pop_of_total_zero env.deck r2 h0]
      exact h0

theorem playAt_last_round_turns (env : HanabiEnv) (i : Fin 5) (r2 : ℕ) (e2 : HanabiEnv)
    (hplay : env.playAt i r2 = some e2) (hlr : env.last_round = true) :
    e2.last_round = true ∧ e2.last_round_turns_taken = env.last_round_turns_taken := by
  rw [HanabiEnv.playAt] at hplay
  split at hplay
  case isTrue hid =>
    dsimp only at hplay
    split at hplay <;>
      · injection hplay with hE
        subst hE
        rw [draw_into_last_round, draw_into_turns]
        constructor
        · show (env.last_round || _) = true
          rw [hlr]
          rfl
        · rfl
  case isFalse hid =>
    exact Option.noConfusion hplay

theorem discardAt2_last_round_turns (env : HanabiEnv) (i : Fin 5) (r2 : ℕ)
    (e2 : HanabiEnv) (hdis : env.discardAt2 i r2 = some e2) (hlr : env.last_round = true) :
    e2.last_round = true ∧ e2.last_round_turns_taken = env.last_round_turns_taken := by
  rw [HanabiEnv.discardAt2] at hdis
  split at hdis
  case isTrue hid =>
    injection hdis with hE
    subst hE
    constructor
    · show ((env.discard_at i ⟨(env.player_hand i).id, hid⟩).draw_into r2 i).last_round
        = true
      rw [draw_into_last_round]
      show (env.last_round || _) = true
      rw [hlr]
      rfl
    · show ((env.discard_at i ⟨(env.player_hand i).id, hid⟩).draw_into
          r2 i).last_round_turns_taken = env.last_round_turns_taken
      rw [draw_into_turns]
      rfl
  case isFalse hid =>
    exact Option.noConfusion hdis

theorem playAt_sets_last_round (env : HanabiEnv) (i : Fin 5) (r2 : ℕ) (e2 : HanabiEnv)
    (hplay : env.playAt i r2 = some e2) (h0 : env.deck.total = 0) :
    e2.last_round = true ∧ e2.last_round_turns_taken = env.last_round_turns_taken := by
  rw [HanabiEnv.playAt] at hplay
  split at hplay
  case isTrue hid =>
    dsimp only at hplay
    split at hplay <;>
      · injection hplay with hE
        subst hE
        rw [draw_into_last_round, draw_into_turns]
        constructor
        · show (_ || !((env.deck.pop r2).1.is_some)) = true
          rw [pop_of_total_zero env.deck r2 h0]
          exact Bool.or_true _
        · rfl
  case isFalse hid =>
    exact Option.noConfusion hplay

theorem discardAt2_sets_last_round (env : HanabiEnv) (i : Fin 5) (r2 : ℕ)
    (e2 : HanabiEnv) (hdis : env.discardAt2 i r2 = some e2) (h0 : env.deck.total = 0) :
    e2.last_round = true ∧ e2.last_round_turns_taken = env.last_round_turns_taken := by
  rw [HanabiEnv.discardAt2] at hdis
  split at hdis
  case isTrue hid =>
    injection hdis with hE
    subst hE
    constructor
    · show ((env.discard_at i ⟨(env.player_hand i).id, hid⟩).draw_into r2 i).last_round
        = true
      rw [draw_into_last_round]
      show (_ || !((env.deck.pop r2).1.is_some)) = true
      rw [pop_of_total_zero env.deck r2 h0]
      exact Bool.or_true _
    · show ((env.discard_at i ⟨(env.player_hand i).id, hid⟩).draw_into
          r2 i).last_round_turns_taken = env.last_round_turns_taken
      rw [draw_into_turns]
      rfl
  case isFalse hid =>
    exact Option.noConfusion hdis

theorem finish_of_last_round (e : HanabiEnv) (hlr : e.last_round = true) :
    e.finish.last_round = true ∧
      e.finish.last_round_turns_taken = e.last_round_turns_taken + 1 := by
  rw [finish_last_round, finish_turns, if_pos hlr]
  exact ⟨hlr, rfl⟩

theorem step_last_round_turns (env : HanabiEnv) (a : Action) (r1 r2 : ℕ)
    (env2 : HanabiEnv) (hstep : env.step a r1 r2 = some env2)
    (hlr : env.last_round = true) :
    env2.last_round = true ∧
      env2.last_round_turns_taken = env.last_round_turns_taken + 1 := by
  match a with
  | Action.ColorHint c =>
    rw [HanabiEnv.step] at hstep
    split at hstep
    · injection hstep with hE
      subst hE
      obtain ⟨h1, h2⟩ := finish_of_last_round (env.applyColorHint c) hlr
      exact ⟨h1, h2⟩
    · exact Option.noConfusion hstep
  | Action.SuitHint s =>
    rw [HanabiEnv.step] at hstep
    split at hstep
    · injection hstep with hE
      subst hE
      obtain ⟨h1, h2⟩ := finish_of_last_round (env.applySuitHint s) hlr
      exact ⟨h1, h2⟩
    · exact Option.noConfusion hstep
  | Action.Play h =>
    rw [HanabiEnv.step] at hstep
    split at hstep
    · exact Option.noConfusion hstep
    · rw [Option.map_eq_some'] at hstep
      obtain ⟨e2, hplay, hfin⟩ := hstep
      subst hfin
      obtain ⟨h1, h2⟩ := playAt_last_round_turns env _ r2 e2 hplay hlr
      obtain ⟨h3, h4⟩ := finish_of_last_round e2 h1
      exact ⟨h3, by rw [h4, h2]⟩
  | Action.Discard h =>
    rw [HanabiEnv.step] at hstep
    split at hstep
    · exact Option.noConfusion hstep
    · rw [Option.map_eq_some'] at hstep
      obtain ⟨e2, hdis, hfin⟩ := hstep
      subst hfin
      obtain ⟨h1, h2⟩ := discardAt2_last_round_turns env _ r2 e2 hdis hlr
      obtain ⟨h3, h4⟩ := finish_of_last_round e2 h1
      exact ⟨h3, by rw [h4, h2]⟩

theorem step_sets_last_round (env : HanabiEnv) (a : Action) (r1 r2 : ℕ)
    (env2 : HanabiEnv) (hstep : env.step a r1 r2 = some env2)
    (h0 : env.deck.total = 0)
    (hPD : (∃ h, a = Action.Play h) ∨ (∃ h, a = Action.Discard h)) :
    env2.last_round = true ∧
      env2.last_round_turns_taken = env.last_round_turns_taken + 1 := by
  rcases hPD with ⟨h, rfl⟩ | ⟨h, rfl⟩
  · rw [HanabiEnv.step] at hstep
    split at hstep
    · exact Option.noConfusion hstep
    · rw [Option.map_eq_some'] at hstep
      obtain ⟨e2, hplay, hfin⟩ := hstep
      subst hfin
      obtain ⟨h1, h2⟩ := playAt_sets_last_round env _ r2 e2 hplay h0
      obtain ⟨h3, h4⟩ := finish_of_last_round e2 h1
      exact ⟨h3, by rw [h4, h2]⟩
  · rw [HanabiEnv.step] at hstep
    split at hstep
    · exact Option.noConfusion hstep
    · rw [Option.map_eq_some'] at hstep
      obtain ⟨e2, hdis, hfin⟩ := hstep
      subst hfin
      obtain ⟨h1, h2⟩ := discardAt2_sets_last_round env _ r2 e2 hdis h0
      obtain ⟨h3, h4⟩ := finish_of_last_round e2 h1
      exact ⟨h3, by rw [h4, h2]⟩

/-- Claim C6, counterexample: from a state whose deck has just emptied, two
legal (hint) turns can pass without the game ending — hint actions draw no
card, so they never set `last_round` and the two-turn counter never starts. -/
theorem claim6_counterexample :
    envC6.deck.total = 0 ∧ envC6.last_round = false ∧ envC6.is_over = false ∧
    Action.ColorHint 2 ∈ envC6.actions ∧
    ((envC6.step (Action.ColorHint 2) 0 0).map
      (fun e2 => decide (Action.ColorHint 0 ∈ e2.actions)) = some true) ∧
    (((envC6.step (Action.ColorHint 2) 0 0).bind
      (fun e2 => e2.step (Action.ColorHint 0) 0 0)).map HanabiEnv.is_over
        = some false) := by
  refine ⟨rfl, rfl, by decide, by decide, by decide, by decide⟩

/-- Claim C6 (amended): the two closing turns are counted from the first
*draw* out of the empty deck, not from the moment the deck empties. A `Play`
or `Discard` with the deck empty sets `last_round` and counts one closing
turn; once `last_round` is set with one closing turn taken, any further step
ends the game (given the conservation and hand data-model invariants). -/
theorem claim6_final_round (env : HanabiEnv) (a : Action) (r1 r2 : ℕ) :
    (env.deck.total = 0 →
      ((∃ h, a = Action.Play h) ∨ (∃ h, a = Action.Discard h)) →
      (env.step a r1 r2).elim True fun env2 =>
        env2.last_round = true ∧
          env2.last_round_turns_taken = env.last_round_turns_taken + 1) ∧
    (env.last_round = true → env.last_round_turns_taken = 1 → env.deck.total = 0 →
      conservation env → env.deck.wf → slotConsistent env → hintsValid env →
      (env.step a r1 r2).elim True fun env2 => env2.is_over = true) := by
  constructor
  · intro h0 hPD
    rcases hstep : env.step a r1 r2 with _ | env2
    · exact trivial
    · exact step_sets_last_round env a r1 r2 env2 hstep h0 hPD
  · intro hlr ht1 h0 hc hw hcons hv
    rcases hstep : env.step a r1 r2 with _ | env2
    · exact trivial
    · show env2.is_over = true
      obtain ⟨hc2, hw2⟩ := step_preserves_consDeck env a r1 r2 env2 hstep hc hw
      have hcons2 := step_preserves_consistent env a r1 r2 env2 hstep hcons hv
      obtain ⟨hlr2, ht2⟩ := step_last_round_turns env a r1 r2 env2 hstep hlr
      have hdeck2 := step_deck_stays_empty env a r1 r2 env2 hstep h0
      rw [is_over_char env2 hc2 hcons2]
      right; right
      exact ⟨hdeck2, hlr2, by omega⟩

/-- Witness for claim C6's theorem: a discard out of the empty deck triggers
the final round in `envC6`, and any step from `envC6b` ends the game. -/
theorem claim6_witness :
    ((envC6.step (Action.Discard Hint.empty) 0 0).elim True fun env2 =>
      env2.last_round = true ∧
        env2.last_round_turns_taken = envC6.last_round_turns_taken + 1) ∧
    ((envC6b.step (Action.ColorHint 2) 0 0).elim True fun env2 =>
      env2.is_over = true) :=
  ⟨(claim6_final_round envC6 (Action.Discard Hint.empty) 0 0).1 rfl
      (Or.inr ⟨Hint.empty, rfl⟩),
    (claim6_final_round envC6b (Action.ColorHint 2) 0 0).2 rfl rfl rfl (by decide)
      (by decide) (by decide) (by decide)⟩

/-! ### The discard action -/

theorem discardAt2_spec (env : HanabiEnv) (i : Fin 5) (r2 : ℕ) (e2 : HanabiEnv)
    (hdis : env.discardAt2 i r2 = some e2) :
    e2.discard = env.discard.add (env.player_hand i) ∧
    e2.blue_tokens = env.blue_tokens + 1 ∧
    e2.player_hand = Function.update env.player_hand i (env.deck.pop r2).1 ∧
    e2.opponent_hand = env.opponent_hand ∧
    e2.deck = (env.deck.pop r2).2 := by
  rw [HanabiEnv.discardAt2] at hdis
  split at hdis
  case isTrue hid =>
    injection hdis with hE
    subst hE
    refine ⟨?_, rfl, ?_, ?_, ?_⟩
    · show ((env.discard_at i ⟨(env.player_hand i).id, hid⟩).draw_into r2 i).discard
        = env.discard.add (env.player_hand i)
      rw [draw_into_discard, CardCollection.add, dif_pos hid]
      rfl
    · show ((env.discard_at i ⟨(env.player_hand i).id, hid⟩).draw_into r2 i).player_hand
        = Function.update env.player_hand i (env.deck.pop r2).1
      rw [draw_into_player_hand]
      show Function.update (Function.update env.player_hand i Card.none) i
        ((env.deck.pop r2).1) = Function.update env.player_hand i (env.deck.pop r2).1
      rw [Function.update_idem]
    · show ((env.discard_at i ⟨(env.player_hand i).id, hid⟩).draw_into r2 i).opponent_hand
        = env.opponent_hand
      rw [draw_into_opponent_hand]
      rfl
    · show ((env.discard_at i ⟨(env.player_hand i).id, hid⟩).draw_into r2 i).deck
        = (env.deck.pop r2).2
      rw [draw_into_deck]
      rfl
  case isFalse hid =>
    exact Option.noConfusion hdis

/-- Claim C7, counterexample: with eight blue tokens, stepping a `Discard`
whose hint occurs in the player's hints leaves nine blue tokens — the discard
branch of `step` has no saturation check. -/
theorem claim7_counterexample :
    envBase.blue_tokens = 8 ∧
    hint_matches envBase.player_hints Hint.empty ≠ [] ∧
    ((envBase.step (Action.Discard Hint.empty) 0 0).map
      (fun e => e.blue_tokens) = some 9) ∧
    ¬((9 : ℕ) ≤ 8) := by
  refine ⟨rfl, by decide, by decide, by omega⟩

/-- Claim C7 (amended): stepping `Discard(hint)` with the hint present among
the player's hints discards the card of the slot selected by the RNG among
the matching slots (each matching slot is selected for some RNG value), draws
into that slot (the slot sits in `opponent_hand` after the seat swap), and
increments `blue_tokens` by one with no saturation; since `actions()` only
offers `Discard` when `blue_tokens < 8`, a legal discard still ends with at
most eight blue tokens. -/
theorem claim7_discard_step (env : HanabiEnv) (h : Hint) (r1 r2 : ℕ) :
    (env.step (Action.Discard h) r1 r2).elim True fun env2 =>
      ∃ i : Fin 5,
        (hint_matches env.player_hints h)[r1 % (hint_matches env.player_hints h).length]?
            = some i ∧
        env2.discard = env.discard.add (env.player_hand i) ∧
        env2.blue_tokens = env.blue_tokens + 1 ∧
        env2.opponent_hand = Function.update env.player_hand i (env.deck.pop r2).1 ∧
        env2.player_hand = env.opponent_hand ∧
        env2.deck = (env.deck.pop r2).2 ∧
        (env.blue_tokens < 8 → env2.blue_tokens ≤ 8) := by
  rcases hstep : env.step (Action.Discard h) r1 r2 with _ | env2
  · exact trivial
  · rw [HanabiEnv.step] at hstep
    split at hstep
    · exact Option.noConfusion hstep
    · rename_i hms
      rw [Option.map_eq_some'] at hstep
      obtain ⟨e2, hdis, hfin⟩ := hstep
      subst hfin
      have hlen : r1 % (hint_matches env.player_hints h).length
          < (hint_matches env.player_hints h).length :=
        Nat.mod_lt _ (List.length_pos.mpr hms)
      obtain ⟨hd, hb, hph, hoh, hdk⟩ := discardAt2_spec env _ r2 e2 hdis
      refine ⟨(hint_matches env.player_hints h).get ⟨_, hlen⟩, ?_, ?_, ?_, ?_, ?_, ?_, ?_⟩
      · rw [List.getElem?_eq_getElem hlen, List.get_eq_getElem]
      · rw [finish_discard]
        exact hd
      · rw [finish_blue]
        exact hb
      · rw [finish_opponent_hand]
        exact hph
      · rw [finish_player_hand]
        exact hoh
      · rw [finish_deck]
        exact hdk
      · intro hlt
        rw [finish_blue, hb]
        omega

/-- Witness for claim C7's theorem at a concrete environment and hint. -/
theorem claim7_witness :
    (envBase.step (Action.Discard Hint.empty) 0 0).elim True fun env2 =>
      ∃ i : Fin 5,
        (hint_matches envBase.player_hints
            Hint.empty)[0 % (hint_matches envBase.player_hints Hint.empty).length]?
            = some i ∧
        env2.discard = envBase.discard.add (envBase.player_hand i) ∧
        env2.blue_tokens = envBase.blue_tokens + 1 ∧
        env2.opponent_hand
            = Function.update envBase.player_hand i (envBase.deck.pop 0).1 ∧
        env2.player_hand = envBase.opponent_hand ∧
        env2.deck = (envBase.deck.pop 0).2 ∧
        (envBase.blue_tokens < 8 → env2.blue_tokens ≤ 8) :=
  claim7_discard_step envBase Hint.empty 0 0

/-! ### Determinization consistency -/

/-- Determinization does succeed on consistent inputs (the success branch of
claim C1's statement is not vacuous). -/
theorem determinize_nonvacuous :
    (HanabiEnv.determinize pubC1 privC1 (fun _ => 0) 0 6).isSome = true := rfl

theorem detGo_matches (hints : Fin 5 → Hint) (f : ℕ → ℕ) :
    ∀ (fuel : ℕ) (deck : CardCollection) (cards : Fin 5 → Card) (prob : ℚ) (i k : ℕ),
      (∀ j : Fin 5, (cards j).is_some = true → (hints j).matches (cards j) = true) →
      ∀ res : (Fin 5 → Card) × ℚ × CardCollection,
        detGo hints f fuel deck cards prob i k = some res →
        ∀ j : Fin 5, (res.1 j).is_some = true → (hints j).matches (res.1 j) = true := by
  intro fuel
  induction fuel with
  | zero =>
    intro deck cards prob i k hinv res hres
    exact Option.noConfusion hres
  | succ fuel ih =>
    intro deck cards prob i k hinv res hres
    rw [detGo] at hres
    split at hres
    case isTrue h5 =>
      split at hres
      case h_1 c p deck2 heq =>
        refine ih _ _ _ _ _ ?_ res hres
        intro j hj
        by_cases hji : j = ⟨i, h5⟩
        · subst hji
          rw [Function.update_same] at hj ⊢
          have h1 : (deck.popMatch (hints ⟨i, h5⟩) (f k)).1 = some (c, p) := by rw [heq]
          obtain ⟨-, -, hmatch, -⟩ := popMatch_some_spec deck _ (f k) c p h1
          exact hmatch
        · rw [Function.update_noteq hji] at hj ⊢
          exact hinv j hj
      case h_2 =>
        split at hres
        case h_1 i0 hskip =>
          refine ih _ _ _ _ _ ?_ res hres
          intro j hj
          exact absurd hj (by rw [card_none_is_some]; exact Bool.noConfusion)
        case h_2 =>
          exact Option.noConfusion hres
    case isFalse h5 =>
      injection hres with h1
      subst h1
      exact hinv

theorem new_spec (pub : PublicInfo) (privP privO : PrivateInfo) (e : HanabiEnv)
    (h : HanabiEnv.new pub privP privO = some e) :
    e.public_info = pub ∧ e.opponent_hand = privP.opponent_hand ∧
      e.player_hand = privO.opponent_hand := by
  rw [HanabiEnv.new] at h
  simp only [Option.bind_eq_some, Option.map_eq_some'] at h
  obtain ⟨d1, h1, d2, h2, deck, h3, he⟩ := h
  subst he
  refine ⟨?_, rfl, rfl⟩
  cases pub
  rfl

/-- Claim C1: whenever `determinize(env.public_info(), env.private_info(false), rng)`
returns an environment, that environment's `public_info` equals `env`'s, its
`opponent_hand` is the hand carried by the `PrivateInfo` passed in, and every
live slot of its `player_hand` holds a card matched by the corresponding
public hint. -/
theorem claim1_determinize (env : HanabiEnv) (f : ℕ → ℕ) (k fuel : ℕ) :
    (HanabiEnv.determinize env.public_info (env.private_info false) f k fuel).elim True
      fun ep =>
        ep.1.public_info = env.public_info ∧
        ep.1.opponent_hand = (env.private_info false).opponent_hand ∧
        ∀ i : Fin 5, (ep.1.player_hand i).is_some = true →
          (env.public_info.player_hints i).matches (ep.1.player_hand i) = true := by
  rcases hdet : HanabiEnv.determinize env.public_info (env.private_info false) f k fuel
    with _ | ep
  · exact trivial
  · rw [HanabiEnv.determinize] at hdet
    simp only [Option.bind_eq_some, Option.map_eq_some'] at hdet
    obtain ⟨op, hop, e, hnew, hep⟩ := hdet
    subst hep
    obtain ⟨hpub, hopp, hph⟩ := new_spec _ _ _ _ hnew
    refine ⟨hpub, hopp, ?_⟩
    rw [HanabiEnv.sample_opponent_info] at hop
    simp only [Option.bind_eq_some, Option.map_eq_some'] at hop
    obtain ⟨d1, hd1, d2, hd2, res, hdh, hopeq⟩ := hop
    subst hopeq
    intro i hi
    rw [hph] at hi ⊢
    rw [determinize_hints] at hdh
    split at hdh
    case h_1 i0 hskip =>
      exact detGo_matches env.public_info.player_hints f fuel d2 _ 1 i0 k
        (fun j hj => absurd hj (by rw [card_none_is_some]; exact Bool.noConfusion))
        res hdh i hi
    case h_2 =>
      exact Option.noConfusion hdh

end Hanabi

